import Mathlib

/-
Verification of the MLLP/EDIFACT pipeline (mllp_genesis.py).

Shallow embedding conventions:
- byte strings are `List Nat` (each element a byte value);
- Python's unbounded `while` loop in `extract_frames` is embedded with a
  fuel argument set to the buffer length; each successful iteration of the
  source loop removes at least 3 bytes from the buffer, so this fuel is
  always sufficient (lemma `extract_go_fuel_irrelevant` below shows the
  result is independent of the fuel once it is at least the buffer
  length, i.e. the fuel never runs out before the loop's own exit);
- fallible operations return `Option`.
-/

namespace MLLP

/-- `START_BLOCK = b"\x0B"` -/
def START_BLOCK : List Nat := [11]

/-- `END_BLOCK = b"\x1C\x0D"` -/
def END_BLOCK : List Nat := [28, 13]

/-- `frame_message(payload) = START_BLOCK + payload + END_BLOCK` -/
def frame_message (payload : List Nat) : List Nat :=
  START_BLOCK ++ payload ++ END_BLOCK

/-- `buffer.index(b"\x0B")` specialised to the one-byte pattern `x`:
index of the first occurrence of byte `x`, or `none` (Python raises
`ValueError`, caught by the caller). -/
def indexOfByte (x : Nat) : List Nat → Option Nat
  | [] => none
  | b :: rest => if b = x then some 0 else (indexOfByte x rest).map (· + 1)

/-- `buffer.index(b"\x1C\x0D", start)` specialised to the two-byte pattern
`x y`: index of the first occurrence of the two consecutive bytes, or
`none`. -/
def indexOfPair (x y : Nat) : List Nat → Option Nat
  | [] => none
  | [_] => none
  | a :: b :: rest =>
    if a = x ∧ b = y then some 0 else (indexOfPair x y (b :: rest)).map (· + 1)

/-- One iteration of the `while True` loop of `extract_frames`: find the
start marker, find the end marker after it, return the extracted payload
`buffer[start+1:end]` and the remaining buffer after `del buffer[:end+2]`;
`none` means the loop `break`s (no complete frame). -/
def extract_one (buffer : List Nat) : Option (List Nat × List Nat) :=
  match indexOfByte 11 buffer with
  | none => none
  | some start =>
    match indexOfPair 28 13 (buffer.drop (start + 1)) with
    | none => none
    | some rel =>
      some ((buffer.drop (start + 1)).take rel, buffer.drop (start + 1 + rel + 2))

/-- The `while True` loop of `extract_frames`, with fuel. -/
def extract_go : Nat → List Nat → List (List Nat) × List Nat
  | 0, b => ([], b)
  | f + 1, b =>
    match extract_one b with
    | none => ([], b)
    | some (p, r) =>
      let res := extract_go f r
      (p :: res.1, res.2)

/-- `extract_frames(buffer)`: returns the list of extracted payloads and
the final (mutated) buffer. -/
def extract_frames (buffer : List Nat) : List (List Nat) × List Nat :=
  extract_go buffer.length buffer

/-- "payload contains no start-marker byte `\x0B`". -/
abbrev no_start (P : List Nat) : Prop := indexOfByte 11 P = none

/-- "payload contains no end-marker byte pair `\x1C\x0D`". -/
abbrev no_end (P : List Nat) : Prop := indexOfPair 28 13 P = none

lemma indexOfByte_cons_self (t : List Nat) : indexOfByte 11 (11 :: t) = some 0 := by
  simp [indexOfByte]

lemma extract_one_nil : extract_one [] = none := rfl

lemma extract_go_of_none {b : List Nat} (h : extract_one b = none) (f : Nat) :
    extract_go f b = ([], b) := by
  cases f with
  | zero => rfl
  | succ f => simp [extract_go, h]

lemma extract_go_nil (f : Nat) : extract_go f [] = ([], []) :=
  extract_go_of_none extract_one_nil f

lemma extract_go_of_some {b p r : List Nat} (h : extract_one b = some (p, r)) (f : Nat) :
    extract_go (f + 1) b = (p :: (extract_go f r).1, (extract_go f r).2) := by
  simp [extract_go, h]

/-- If the end-marker pair does not occur in `A`, then in `A ++ 28 :: 13 :: rest`
its first occurrence is exactly at the boundary, at index `A.length`. -/
lemma indexOfPair_boundary :
    ∀ (A : List Nat), indexOfPair 28 13 A = none →
      ∀ rest : List Nat, indexOfPair 28 13 (A ++ 28 :: 13 :: rest) = some A.length := by
  intro A
  induction A with
  | nil =>
    intro _ rest
    simp [indexOfPair]
  | cons a A ih =>
    intro h rest
    cases A with
    | nil =>
      simp only [List.nil_append, List.length_cons, List.length_nil]
      have : ¬ (a = 28 ∧ (28 : Nat) = 13) := by omega
      simp [indexOfPair, this]
    | cons b A' =>
      have hcond : ¬ (a = 28 ∧ b = 13) := by
        intro hc
        simp [indexOfPair, hc.1, hc.2] at h
      have htail : indexOfPair 28 13 (b :: A') = none := by
        simp only [indexOfPair, hcond, if_false, Option.map_eq_none'] at h
        exact h
      have hrec := ih htail rest
      simp only [List.cons_append] at hrec
      simp only [List.cons_append, indexOfPair, hcond, if_false, List.append_eq]
      rw [hrec]
      simp [List.length_cons]

/-- Absence of the pair is preserved by taking a prefix. -/
lemma indexOfPair_take_none {x y : Nat} :
    ∀ (l : List Nat) (m : Nat), indexOfPair x y l = none →
      indexOfPair x y (l.take m) = none := by
  intro l
  induction l with
  | nil => intro m _; simp [indexOfPair]
  | cons a l ih =>
    intro m h
    cases m with
    | zero => simp [indexOfPair]
    | succ m =>
      rw [List.take_succ_cons]
      cases l with
      | nil =>
        rw [List.take_nil]
        simp [indexOfPair]
      | cons b l' =>
        have hcond : ¬ (a = x ∧ b = y) := by
          intro hc
          simp [indexOfPair, hc.1, hc.2] at h
        have htail : indexOfPair x y (b :: l') = none := by
          simp only [indexOfPair, hcond, if_false, Option.map_eq_none'] at h
          exact h
        have hih := ih m htail
        cases m with
        | zero =>
          simp [indexOfPair]
        | succ m' =>
          rw [List.take_succ_cons] at hih
          simp only [indexOfPair, hcond, if_false, Option.map_eq_none']
          exact hih

/-- Absence of the end-marker pair is preserved by appending a lone `28`. -/
lemma indexOfPair_snoc28 :
    ∀ (A : List Nat), indexOfPair 28 13 A = none →
      indexOfPair 28 13 (A ++ [28]) = none := by
  intro A
  induction A with
  | nil => intro _; simp [indexOfPair]
  | cons a A ih =>
    intro h
    cases A with
    | nil =>
      have : ¬ (a = 28 ∧ (28 : Nat) = 13) := by omega
      simp [indexOfPair, this]
    | cons b A' =>
      have hcond : ¬ (a = 28 ∧ b = 13) := by
        intro hc
        simp [indexOfPair, hc.1, hc.2] at h
      have htail : indexOfPair 28 13 (b :: A') = none := by
        simp only [indexOfPair, hcond, if_false, Option.map_eq_none'] at h
        exact h
      have := ih htail
      simp only [List.cons_append, indexOfPair, hcond, if_false, Option.map_eq_none']
      rw [List.cons_append] at this
      exact this

lemma frame_message_eq (A : List Nat) :
    frame_message A = 11 :: (A ++ 28 :: 13 :: []) := by
  simp [frame_message, START_BLOCK, END_BLOCK]

/-- A pair found at index `k` needs at least `k + 2` bytes of buffer. -/
lemma indexOfPair_le_length {x y : Nat} :
    ∀ (l : List Nat) (k : Nat), indexOfPair x y l = some k → k + 2 ≤ l.length := by
  intro l
  induction l with
  | nil => intro k hk; simp [indexOfPair] at hk
  | cons a l ih =>
    intro k hk
    cases l with
    | nil => simp [indexOfPair] at hk
    | cons c l' =>
      by_cases hc : a = x ∧ c = y
      · simp only [indexOfPair, if_pos hc, Option.some.injEq] at hk
        subst hk
        simp only [List.length_cons]
        omega
      · simp only [indexOfPair, if_neg hc, Option.map_eq_some'] at hk
        obtain ⟨k', hk', rfl⟩ := hk
        have := ih k' hk'
        simp only [List.length_cons] at this ⊢
        omega

/-- A complete frame at the head of the buffer is extracted in one loop
iteration: payload `A`, remaining buffer `R`. -/
lemma extract_one_frame {A : List Nat} (hA : no_end A) (R : List Nat) :
    extract_one (frame_message A ++ R) = some (A, R) := by
  have hshape : frame_message A ++ R = 11 :: (A ++ 28 :: 13 :: R) := by
    simp [frame_message, START_BLOCK, END_BLOCK]
  rw [hshape]
  have h2 : indexOfPair 28 13 (A ++ 28 :: 13 :: R) = some A.length :=
    indexOfPair_boundary A hA R
  have htake : (A ++ 28 :: 13 :: R).take A.length = A := List.take_left A _
  have hdrop : (A ++ 28 :: 13 :: R).drop (A.length + 2) = R := by
    have hx : A ++ 28 :: 13 :: R = (A ++ [28, 13]) ++ R := by simp
    have hlen : (A ++ [28, 13]).length = A.length + 2 := by simp
    rw [hx, ← hlen, List.drop_left]
  simp only [extract_one, indexOfByte_cons_self, List.drop_succ_cons, List.drop_zero, h2,
    htake]
  have hidx : 0 + 1 + A.length + 1 = A.length + 2 := by omega
  rw [hidx, hdrop]

/-- Each successful loop iteration consumes at least three bytes. -/
lemma extract_one_shrinks {b p r : List Nat} (h : extract_one b = some (p, r)) :
    r.length + 3 ≤ b.length := by
  unfold extract_one at h
  split at h
  · exact absurd h (by simp)
  · rename_i start h1
    split at h
    · exact absurd h (by simp)
    · rename_i rel h2
      simp only [Option.some.injEq, Prod.mk.injEq] at h
      obtain ⟨hp, hr⟩ := h
      have h2len := indexOfPair_le_length _ _ h2
      rw [List.length_drop] at h2len
      rw [← hr, List.length_drop]
      omega

/-- The fuel `buffer.length` used by `extract_frames` never runs out:
any fuel at least the buffer length gives the same result, so the
embedding agrees with the source's unbounded loop. -/
lemma extract_go_fuel_irrelevant :
    ∀ (f₁ : Nat) (b : List Nat) (f₂ : Nat), b.length ≤ f₁ → b.length ≤ f₂ →
      extract_go f₁ b = extract_go f₂ b := by
  intro f₁
  induction f₁ with
  | zero =>
    intro b f₂ h1 _
    have : b = [] := List.length_eq_zero.mp (Nat.le_zero.mp h1)
    subst this
    rw [extract_go_nil, extract_go_nil]
  | succ f ih =>
    intro b f₂ h1 h2
    cases hone : extract_one b with
    | none => rw [extract_go_of_none hone, extract_go_of_none hone]
    | some pr =>
      obtain ⟨p, r⟩ := pr
      have hlen := extract_one_shrinks hone
      cases f₂ with
      | zero =>
        exfalso; omega
      | succ f₂' =>
        rw [extract_go_of_some hone f, extract_go_of_some hone f₂']
        have : extract_go f r = extract_go f₂' r := ih r f₂' (by omega) (by omega)
        rw [this]

/-- Extracting from exactly one well-formed frame yields the payload and
an empty buffer. -/
lemma extract_frame_single {A : List Nat} (hA : no_end A) :
    extract_frames (frame_message A) = ([A], []) := by
  have hone : extract_one (frame_message A) = some (A, []) := by
    have := extract_one_frame hA []
    rwa [List.append_nil] at this
  have hlen : (frame_message A).length = (A.length + 2) + 1 := by
    simp [frame_message, START_BLOCK, END_BLOCK]
  unfold extract_frames
  rw [hlen, extract_go_of_some hone, extract_go_nil]

/-- Claim C2: for every payload P containing neither the one-byte start
marker nor the two-byte end marker, decoding the encoding of P yields
exactly `[P]` (and an empty buffer). -/
theorem C2_decode_encode (P : List Nat) (h1 : no_start P) (h2 : no_end P) :
    extract_frames (frame_message P) = ([P], []) :=
  extract_frame_single h2

/-- Witness for C2 at a concrete payload. -/
theorem C2_decode_encode_witness :
    extract_frames (frame_message [72, 73]) = ([[72, 73]], []) :=
  C2_decode_encode [72, 73] (by decide) (by decide)

/-- Claim C3: frames are extracted left-to-right and consumed from the
buffer; an incomplete trailing frame is left in place. Concretely: for
marker-free A and B, decoding `encode A ++ encode B` yields `[A, B]`
with an empty buffer; decoding a strict prefix of `encode A` yields no
frames and leaves the buffer unchanged; completing that buffer with the
rest of `encode A` then yields `[A]`. -/
theorem C3_stream_decode (A B : List Nat)
    (hA1 : no_start A) (hA2 : no_end A) (hB1 : no_start B) (hB2 : no_end B) :
    extract_frames (frame_message A ++ frame_message B) = ([A, B], [])
    ∧ (∀ k, k < (frame_message A).length →
        extract_frames ((frame_message A).take k) = ([], (frame_message A).take k))
    ∧ (∀ k, k < (frame_message A).length →
        extract_frames ((frame_message A).take k ++ (frame_message A).drop k)
          = ([A], [])) := by
  refine ⟨?_, ?_, ?_⟩
  · -- two complete frames in one buffer
    have hone1 : extract_one (frame_message A ++ frame_message B)
        = some (A, frame_message B) := extract_one_frame hA2 _
    have hone2 : extract_one (frame_message B) = some (B, []) := by
      have := extract_one_frame hB2 []
      rwa [List.append_nil] at this
    have hlen : (frame_message A ++ frame_message B).length
        = ((A.length + B.length + 4) + 1) + 1 := by
      simp [frame_message, START_BLOCK, END_BLOCK]; omega
    unfold extract_frames
    rw [hlen, extract_go_of_some hone1, extract_go_of_some hone2, extract_go_nil]
  · -- a strict prefix of one frame yields nothing and is left in place
    intro k hk
    cases k with
    | zero =>
      simp [extract_frames, extract_go]
    | succ k' =>
      have hshape : frame_message A = 11 :: (A ++ [28, 13]) := by
        simp [frame_message, START_BLOCK, END_BLOCK]
      have hklen : k' ≤ A.length + 1 := by
        rw [hshape] at hk
        simp at hk
        omega
      -- the truncated tail holds no complete end marker
      have htail_eq : (A ++ [28, 13]).take k' = (A ++ [28]).take k' := by
        rw [List.take_append_eq_append_take, List.take_append_eq_append_take]
        congr 1
        have hd : k' - A.length ≤ 1 := by omega
        interval_cases h : (k' - A.length) <;> rfl
      have hnone : indexOfPair 28 13 ((A ++ [28, 13]).take k') = none := by
        rw [htail_eq]
        exact indexOfPair_take_none _ _ (indexOfPair_snoc28 A hA2)
      have hone : extract_one ((frame_message A).take (k' + 1)) = none := by
        rw [hshape, List.take_succ_cons]
        simp only [extract_one, indexOfByte_cons_self, List.drop_succ_cons,
          List.drop_zero, hnone]
      unfold extract_frames
      rw [extract_go_of_none hone]
  · -- completing the buffer yields the frame
    intro k _
    rw [List.take_append_drop]
    exact extract_frame_single hA2

/-- Witness for C3 at concrete payloads. -/
theorem C3_stream_decode_witness :
    extract_frames (frame_message [65] ++ frame_message [66, 67]) = ([[65], [66, 67]], [])
    ∧ extract_frames ((frame_message [65]).take 2) = ([], (frame_message [65]).take 2) := by
  have h := C3_stream_decode [65] [66, 67] (by decide) (by decide) (by decide) (by decide)
  exact ⟨h.1, h.2.1 2 (by decide)⟩

/-! ### Validation (`basic_validate_edifact_bytes`)

The source decodes the payload with `errors="replace"` (which never
raises) and then works on the decoded text, so the text is modelled as
the raw byte list.  For payloads consisting only of ASCII bytes
(`asciiOnly` below) the decode is the identity and the byte-level model
is exact, including every `str.splitlines` line terminator that an
ASCII byte can produce and `int()`'s whitespace/underscore handling.
An ASCII byte also decodes to itself inside arbitrary byte strings and
the marker substrings `UNA`/`UNB`/`UNH+`/`UNT+` can only arise from
their ASCII bytes, so the validity conditions (prefix and containment
checks) are exact for all payloads; only the line/count scan is scoped
to ASCII payloads (non-ASCII sequences such as the UTF-8 encodings of
U+0085/U+2028/U+2029 would add line breaks after decoding). -/

/-- Bytes of a Lean string (used for note payloads written to sidecars). -/
def strBytes (s : String) : List Nat := s.data.map Char.toNat

/-- `"UNA"` -/
def sUNA : List Nat := [85, 78, 65]
/-- `"UNB"` -/
def sUNB : List Nat := [85, 78, 66]
/-- `"UNH+"` -/
def sUNH : List Nat := [85, 78, 72, 43]
/-- `"UNT+"` -/
def sUNT : List Nat := [85, 78, 84, 43]

/-- Split a byte list on a separator byte (like `str.split`). -/
def splitOnByte (sep : Nat) : List Nat → List (List Nat)
  | [] => [[]]
  | b :: rest =>
    if b = sep then [] :: splitOnByte sep rest
    else
      match splitOnByte sep rest with
      | [] => [[b]]
      | l :: ls => (b :: l) :: ls

/-- All bytes that are `str.splitlines()` line terminators after an
ASCII decode: `\n`, `\v`, `\f`, `\r`, `\x1c` (FS), `\x1d` (GS),
`\x1e` (RS). -/
def isLineBreakB (b : Nat) : Bool :=
  b = 10 || b = 11 || b = 12 || b = 13 || b = 28 || b = 29 || b = 30

/-- Split off the first line: bytes up to the first line terminator,
and the remainder after consuming that terminator (`\r\n` counts as a
single break, as in `str.splitlines`). -/
def splitFirstLine : List Nat → List Nat × List Nat
  | [] => ([], [])
  | b :: rest =>
    if b = 13 then
      match rest with
      | [] => ([], [])
      | c :: rest' => if c = 10 then ([], rest') else ([], c :: rest')
    else if isLineBreakB b then ([], rest)
    else (b :: (splitFirstLine rest).1, (splitFirstLine rest).2)

/-- The line-splitting loop, with fuel (each line consumes at least one
byte, so `l.length` fuel always suffices; see
`splitlinesGo_fuel_irrelevant`). -/
def splitlinesGo : Nat → List Nat → List (List Nat)
  | 0, _ => []
  | _ + 1, [] => []
  | fuel + 1, b :: rest =>
    (splitFirstLine (b :: rest)).1 :: splitlinesGo fuel (splitFirstLine (b :: rest)).2

/-- `txt.splitlines()`: no trailing empty line after a final terminator,
`[]` on empty input.  Exact for ASCII payloads (see the section
comment). -/
def splitlinesB (l : List Nat) : List (List Nat) := splitlinesGo l.length l

lemma splitFirstLine_le : ∀ s : List Nat, (splitFirstLine s).2.length ≤ s.length := by
  intro s
  induction s with
  | nil => simp [splitFirstLine]
  | cons b rest ih =>
    by_cases hb : b = 13
    · cases rest with
      | nil => simp [splitFirstLine, hb]
      | cons c rest' =>
        by_cases hc : c = 10
        · simp [splitFirstLine, hb, hc, List.length_cons]
          omega
        · simp [splitFirstLine, hb, hc, List.length_cons]
    · by_cases hbr : isLineBreakB b = true
      · simp [splitFirstLine, hb, hbr, List.length_cons]
      · have hih := ih
        simp [splitFirstLine, hb, hbr, List.length_cons]
        omega

lemma splitFirstLine_lt (b : Nat) (rest : List Nat) :
    (splitFirstLine (b :: rest)).2.length < (b :: rest).length := by
  by_cases hb : b = 13
  · cases rest with
    | nil => simp [splitFirstLine, hb]
    | cons c rest' =>
      by_cases hc : c = 10
      · simp [splitFirstLine, hb, hc, List.length_cons]
        omega
      · simp [splitFirstLine, hb, hc, List.length_cons]
  · by_cases hbr : isLineBreakB b = true
    · simp [splitFirstLine, hb, hbr, List.length_cons]
    · have hle := splitFirstLine_le rest
      simp [splitFirstLine, hb, hbr, List.length_cons]
      omega

/-- The fuel used by `splitlinesB` never runs out: any fuel at least the
buffer length gives the same result, so the embedding agrees with the
source's unbounded scan. -/
lemma splitlinesGo_fuel_irrelevant :
    ∀ (f₁ : Nat) (l : List Nat) (f₂ : Nat), l.length ≤ f₁ → l.length ≤ f₂ →
      splitlinesGo f₁ l = splitlinesGo f₂ l := by
  intro f₁
  induction f₁ with
  | zero =>
    intro l f₂ h1 _
    have hl : l = [] := List.length_eq_zero.mp (Nat.le_zero.mp h1)
    subst hl
    cases f₂ <;> rfl
  | succ f ih =>
    intro l f₂ h1 h2
    cases l with
    | nil => cases f₂ <;> rfl
    | cons b rest =>
      have hlt := splitFirstLine_lt b rest
      cases f₂ with
      | zero => exact absurd h2 (by simp)
      | succ f₂' =>
        simp only [splitlinesGo]
        congr 1
        have hb1 : (splitFirstLine (b :: rest)).2.length ≤ f := by
          simp only [List.length_cons] at h1 hlt
          omega
        have hb2 : (splitFirstLine (b :: rest)).2.length ≤ f₂' := by
          simp only [List.length_cons] at h2 hlt
          omega
        exact ih _ f₂' hb1 hb2

/-- `pat in txt` (substring containment). -/
def containsSub (pat : List Nat) : List Nat → Bool
  | [] => pat.isEmpty
  | b :: rest => pat.isPrefixOf (b :: rest) || containsSub pat rest

/-- `next(i for i, ln in enumerate(lines) if p(ln))`: index and value of
the first matching line, `none` for `StopIteration`. -/
def findSeg (p : List Nat → Bool) : List (List Nat) → Option (Nat × List Nat)
  | [] => none
  | ln :: rest =>
    if p ln then some (0, ln) else (findSeg p rest).map (fun q => (q.1 + 1, q.2))

def isDigitB (b : Nat) : Bool := 48 ≤ b && b ≤ 57

/-- All ASCII bytes Python's `int()` strips as whitespace:
`\t \n \v \f \r` and space (the `\x1c`-`\x1f` separators are `str`
whitespace but are not accepted around a number by `int()`). -/
def isPySpace (b : Nat) : Bool :=
  b = 9 || b = 10 || b = 11 || b = 12 || b = 13 || b = 32

/-- The leading/trailing whitespace stripping `int()` performs around
the number. -/
def stripB (l : List Nat) : List Nat :=
  ((l.dropWhile isPySpace).reverse.dropWhile isPySpace).reverse

/-- Digits after the first one, allowing a single underscore between two
digits (as `int()` does): `1_0` parses, `1__0`, `1_` and `_1` do not. -/
def parseDigitsGo : Nat → List Nat → Option Nat
  | acc, [] => some acc
  | acc, 95 :: rest =>
    match rest with
    | [] => none
    | d :: rest' =>
      if isDigitB d then parseDigitsGo (10 * acc + (d - 48)) rest' else none
  | acc, d :: rest =>
    if isDigitB d then parseDigitsGo (10 * acc + (d - 48)) rest else none

/-- A non-empty digit string with underscore separators. -/
def parseDigitsU : List Nat → Option Nat
  | [] => none
  | d :: rest => if isDigitB d then parseDigitsGo (d - 48) rest else none

/-- `int(s)` (`none` models `ValueError`): strip whitespace, optional
sign, then digits with underscore separators.  Exact for ASCII
payloads (see the section comment). -/
def parseInt (l : List Nat) : Option Int :=
  match stripB l with
  | 45 :: rest => (parseDigitsU rest).map (fun x => -(x : Int))
  | 43 :: rest => (parseDigitsU rest).map (fun x => (x : Int))
  | s => (parseDigitsU s).map (fun x => (x : Int))

/-- The segment-count scan of `basic_validate_edifact_bytes`: first line
starting with `UNH+`, first line starting with `UNT+` at or after it,
the reported count parsed from `UNT+<count>+...`, and the actual count
`unt_idx - unh_idx + 1`. `none` models `StopIteration` or a parse
failure (both `pass`ed over in the source). -/
def segInfo (txt : List Nat) : Option (Int × Nat) :=
  let parts := splitlinesB txt
  match findSeg (fun ln => sUNH.isPrefixOf ln) parts with
  | none => none
  | some (i, _) =>
    match findSeg (fun ln => sUNT.isPrefixOf ln) (parts.drop i) with
    | none => none
    | some (j, untLine) =>
      match (splitOnByte 43 untLine).get? 1 with
      | none => none
      | some body =>
        match parseInt body with
        | none => none
        | some reported => some (reported, j + 1)

/-- `f"segment_count_mismatch_reported={reported}_actual={seg_count}"` -/
def mismatchNote (reported : Int) (actual : Nat) : String :=
  "segment_count_mismatch_reported=" ++ toString reported
    ++ "_actual=" ++ toString actual

/-- `basic_validate_edifact_bytes(data)`: the validation heuristic.
(The `decode_error` branch of the source is unreachable because
`errors="replace"` never raises.) -/
def basic_validate_edifact_bytes (data : List Nat) : Bool × String :=
  if !(sUNA.isPrefixOf data || sUNB.isPrefixOf data) then (false, "missing_UNA_or_UNB")
  else if !(containsSub sUNH data) then (false, "missing_UNH")
  else if !(containsSub sUNT data) then (false, "missing_UNT")
  else
    match segInfo data with
    | some ri =>
      if 2 < (ri.1 - (ri.2 : Int)).natAbs then (true, mismatchNote ri.1 ri.2)
      else (true, "ok")
    | none => (true, "ok")

/-- Payloads of ASCII bytes only: on these the UTF-8 decode with
`errors="replace"` is the identity and the line/count scan of the model
coincides exactly with the source (see the section comment). -/
def asciiOnly (l : List Nat) : Bool := l.all (fun b => decide (b < 128))

/-- Claim C5: validity holds exactly when the payload starts with UNA or
UNB and contains both `UNH+` and `UNT+` (exact for arbitrary byte
payloads); the segment-count comparison never invalidates, and for an
ASCII payload with both markers whose reported count is within 2 of the
actual count the result is `(true, "ok")`. -/
theorem C5_validate_markers (data : List Nat) :
    ((basic_validate_edifact_bytes data).1 = true ↔
      ((sUNA.isPrefixOf data || sUNB.isPrefixOf data) = true
        ∧ containsSub sUNH data = true ∧ containsSub sUNT data = true))
    ∧ (∀ (r : Int) (a : Nat), asciiOnly data = true →
        (sUNA.isPrefixOf data || sUNB.isPrefixOf data) = true →
        containsSub sUNH data = true → containsSub sUNT data = true →
        segInfo data = some (r, a) → (r - (a : Int)).natAbs ≤ 2 →
        basic_validate_edifact_bytes data = (true, "ok")) := by
  constructor
  · cases h1 : (sUNA.isPrefixOf data || sUNB.isPrefixOf data) with
    | false => simp [basic_validate_edifact_bytes, h1]
    | true =>
      cases h2 : containsSub sUNH data with
      | false => simp [basic_validate_edifact_bytes, h1, h2]
      | true =>
        cases h3 : containsSub sUNT data with
        | false => simp [basic_validate_edifact_bytes, h1, h2, h3]
        | true =>
          simp only [basic_validate_edifact_bytes, h1, h2, h3, Bool.not_true,
            Bool.false_eq_true, if_false]
          cases hsi : segInfo data with
          | none => simp
          | some ri =>
            obtain ⟨r, a⟩ := ri
            by_cases hgt : 2 < (r - (a : Int)).natAbs
            · simp [hgt]
            · simp [hgt]
  · intro r a _ h1 h2 h3 hsi hle
    simp only [basic_validate_edifact_bytes, h1, h2, h3, Bool.not_true,
      Bool.false_eq_true, if_false, hsi]
    rw [if_neg (by omega : ¬ 2 < (r - (a : Int)).natAbs)]

/-- A well-formed three-line EDIFACT sample:
`"UNA:+.? '\nUNH+1+X'\nUNT+2+1'\n"`. -/
def sampleEdifact : List Nat :=
  [85, 78, 65, 58, 43, 46, 63, 32, 39, 10,
   85, 78, 72, 43, 49, 43, 88, 39, 10,
   85, 78, 84, 43, 50, 43, 49, 39, 10]

/-- Witness for C5 at a concrete payload with a matching segment count. -/
theorem C5_validate_markers_witness :
    basic_validate_edifact_bytes sampleEdifact = (true, "ok") :=
  (C5_validate_markers sampleEdifact).2 2 2 (by decide) (by decide) (by decide)
    (by decide) (by decide) (by decide)

/-! ### Delivery orchestrator (`send_one_file`)

`send_one_file` is embedded over two oracles: `read k` is the result of
re-reading the source file at attempt `k` (`none` models an `open`/`read`
exception), and `tr payload k` is the result of `mllp_send` at attempt
`k` (`none` models no ACK / timeout / connect / handshake failure).
Timestamps are abstracted to the attempt number at which the last send
happened.  The trace records, in order, each transport invocation and
each `time.sleep(1)` backoff. -/

/-- The per-file metadata dict
`{"attempts": ..., "sent_at": ..., "ack": ..., "error": ...}`. -/
structure Meta where
  attempts : Nat
  sent_at : Option Nat
  ack : Option (List Nat)
  error : Option String
deriving DecidableEq, Repr

/-- Observable events of the attempt loop. -/
inductive Ev where
  | send (attempt : Nat)
  | sleep
deriving DecidableEq, Repr, BEq

/-- The `for attempt in range(1, max_attempts + 1)` loop: `rem` is the
number of iterations left, `attempt` the current attempt number. -/
def send_go (read : Nat → Option (List Nat)) (tr : List Nat → Nat → Option (List Nat)) :
    Nat → Nat → Meta → List Ev → Bool × Meta × List Ev
  | 0, _, meta, evs => (false, meta, evs)
  | rem + 1, attempt, meta, evs =>
    let meta1 := { meta with attempts := attempt }
    match read attempt with
    | none => (false, { meta1 with error := some "read_error" }, evs)
    | some payload =>
      let meta2 := { meta1 with sent_at := some attempt }
      match tr payload attempt with
      | none =>
        send_go read tr rem (attempt + 1)
          { meta2 with error := some "no_ack_or_timeout" }
          (evs ++ [Ev.send attempt, Ev.sleep])
      | some resp =>
        (true, { meta2 with ack := some resp }, evs ++ [Ev.send attempt])

/-- `send_one_file(filepath, ..., max_attempts)`. -/
def send_one_file (read : Nat → Option (List Nat))
    (tr : List Nat → Nat → Option (List Nat)) (max_attempts : Nat) :
    Bool × Meta × List Ev :=
  send_go read tr max_attempts 1 ⟨0, none, none, none⟩ []

/-- The trace of a run of consecutive failed attempts starting at `a`:
one send and one backoff sleep per failed attempt. -/
def failTrace : Nat → Nat → List Ev
  | _, 0 => []
  | a, rem + 1 => Ev.send a :: Ev.sleep :: failTrace (a + 1) rem

/-- One failed iteration of the attempt loop. -/
lemma send_go_fail_step {read : Nat → Option (List Nat)}
    {tr : List Nat → Nat → Option (List Nat)} {attempt : Nat} {p : List Nat}
    (hread : read attempt = some p) (htr : tr p attempt = none)
    (rem : Nat) (meta : Meta) (evs : List Ev) :
    send_go read tr (rem + 1) attempt meta evs =
      send_go read tr rem (attempt + 1)
        { attempts := attempt, sent_at := some attempt, ack := meta.ack,
          error := some "no_ack_or_timeout" }
        (evs ++ [Ev.send attempt, Ev.sleep]) := by
  simp [send_go, hread, htr]

/-- One successful iteration of the attempt loop. -/
lemma send_go_ack_step {read : Nat → Option (List Nat)}
    {tr : List Nat → Nat → Option (List Nat)} {attempt : Nat} {p resp : List Nat}
    (hread : read attempt = some p) (htr : tr p attempt = some resp)
    (rem : Nat) (meta : Meta) (evs : List Ev) :
    send_go read tr (rem + 1) attempt meta evs =
      (true,
       { attempts := attempt, sent_at := some attempt, ack := some resp,
         error := meta.error },
       evs ++ [Ev.send attempt]) := by
  simp [send_go, hread, htr]

/-- Loop lemma: if reading succeeds and the transport fails on every
remaining attempt, the loop exhausts its budget, ending with attempt
number `attempt + rem - 1`, the no-ack error, and a send+sleep pair per
attempt. -/
lemma send_go_all_fail (read : Nat → Option (List Nat))
    (tr : List Nat → Nat → Option (List Nat)) :
    ∀ (rem attempt : Nat) (meta : Meta) (evs : List Ev), 1 ≤ rem →
    (∀ k, attempt ≤ k → k < attempt + rem → ∃ p, read k = some p ∧ tr p k = none) →
    send_go read tr rem attempt meta evs =
      (false,
       { attempts := attempt + rem - 1, sent_at := some (attempt + rem - 1),
         ack := meta.ack, error := some "no_ack_or_timeout" },
       evs ++ failTrace attempt rem) := by
  intro rem
  induction rem with
  | zero => intro attempt meta evs h; omega
  | succ rem ih =>
    intro attempt meta evs _ hfail
    obtain ⟨p, hread, htr⟩ := hfail attempt (le_refl _) (by omega)
    rw [send_go_fail_step hread htr]
    cases rem with
    | zero =>
      simp [send_go, failTrace]
    | succ rem' =>
      rw [ih (attempt + 1) _ _ (by omega) (fun k hk1 hk2 => hfail k (by omega) (by omega))]
      have h1 : attempt + 1 + (rem' + 1) - 1 = attempt + (rem' + 1 + 1) - 1 := by omega
      have h2 : failTrace attempt (rem' + 1 + 1)
          = Ev.send attempt :: Ev.sleep :: failTrace (attempt + 1) (rem' + 1) := rfl
      simp [h1, h2]

/-- Loop lemma: if the transport fails before attempt `K` and succeeds at
attempt `K`, the loop stops at `K` with the ACK recorded; the error field
keeps the value recorded by the last failed attempt (the initial value if
`K` is the first attempt of the run). -/
lemma send_go_first_ack (read : Nat → Option (List Nat))
    (tr : List Nat → Nat → Option (List Nat)) (resp : List Nat) :
    ∀ (rem attempt K : Nat) (meta : Meta) (evs : List Ev),
    attempt ≤ K → K < attempt + rem →
    (∀ k, attempt ≤ k → k < K → ∃ p, read k = some p ∧ tr p k = none) →
    (∃ p, read K = some p ∧ tr p K = some resp) →
    send_go read tr rem attempt meta evs =
      (true,
       { attempts := K, sent_at := some K, ack := some resp,
         error := if attempt < K then some "no_ack_or_timeout" else meta.error },
       evs ++ failTrace attempt (K - attempt) ++ [Ev.send K]) := by
  intro rem
  induction rem with
  | zero => intro attempt K meta evs h1 h2; omega
  | succ rem ih =>
    intro attempt K meta evs h1 h2 hfail hsucc
    rcases Nat.eq_or_lt_of_le h1 with heq | hlt
    · subst heq
      obtain ⟨p, hread, htr⟩ := hsucc
      rw [send_go_ack_step hread htr]
      simp [failTrace]
    · obtain ⟨p, hread, htr⟩ := hfail attempt (le_refl _) hlt
      rw [send_go_fail_step hread htr]
      rw [ih (attempt + 1) K _ _ (by omega) (by omega)
        (fun k hk1 hk2 => hfail k (by omega) hk2) hsucc]
      rw [if_pos hlt]
      have harith : K - attempt = (K - (attempt + 1)) + 1 := by omega
      have h2 : failTrace attempt ((K - (attempt + 1)) + 1)
          = Ev.send attempt :: Ev.sleep :: failTrace (attempt + 1) (K - (attempt + 1)) := rfl
      rw [harith, h2]
      by_cases h4 : attempt + 1 < K
      · simp [h4]
      · simp [h4]

/-- Claim C4: with `N ≥ 1` attempts available, the orchestrator numbers
attempts from 1, stops at the first ACK, and otherwise exhausts the
budget: if the transport fails on every attempt the result is failure
with `attempts = N` and the last recorded no-ack error; if it first
succeeds at attempt `K ≤ N` the result is success with `attempts = K`
and the ack populated. -/
theorem C4_retry_loop (read : Nat → Option (List Nat))
    (tr : List Nat → Nat → Option (List Nat)) (N : Nat) (hN : 1 ≤ N) :
    ((∀ k, 1 ≤ k → k ≤ N → ∃ p, read k = some p ∧ tr p k = none) →
      send_one_file read tr N =
        (false, { attempts := N, sent_at := some N, ack := none,
                  error := some "no_ack_or_timeout" }, failTrace 1 N))
    ∧ (∀ K resp, 1 ≤ K → K ≤ N →
        (∀ k, 1 ≤ k → k < K → ∃ p, read k = some p ∧ tr p k = none) →
        (∃ p, read K = some p ∧ tr p K = some resp) →
        (send_one_file read tr N).1 = true
        ∧ (send_one_file read tr N).2.1.attempts = K
        ∧ (send_one_file read tr N).2.1.ack = some resp) := by
  constructor
  · intro hfail
    unfold send_one_file
    rw [send_go_all_fail read tr N 1 _ _ hN
      (fun k hk1 hk2 => hfail k hk1 (by omega))]
    simp
  · intro K resp hK1 hK2 hfail hsucc
    unfold send_one_file
    rw [send_go_first_ack read tr resp N 1 K _ _ hK1 (by omega) hfail hsucc]
    simp

/-- Witness for C4: two attempts, failure then success at attempt 2. -/
theorem C4_retry_loop_witness :
    (send_one_file (fun _ => some []) (fun _ k => if k = 2 then some [65] else none) 2).1 = true
    ∧ (send_one_file (fun _ => some []) (fun _ k => if k = 2 then some [65] else none) 2).2.1.attempts = 2
    ∧ (send_one_file (fun _ => some []) (fun _ k => if k = 2 then some [65] else none) 2).2.1.ack = some [65] := by
  refine (C4_retry_loop (fun _ => some []) (fun _ k => if k = 2 then some [65] else none)
    2 (by omega)).2 2 [65] (by omega) (by omega) ?_ ?_
  · intro k hk1 hk2
    exact ⟨[], rfl, by simp; omega⟩
  · exact ⟨[], rfl, by simp⟩

/-- Counterexample to claim C8 as stated: with a single attempt that
fails, the loop still performs a backoff sleep after the final failed
attempt (the trace ends with a sleep and the run returns failure), so
the backoff wait is not conditioned on attempts remaining. -/
theorem C8_counterexample :
    (send_one_file (fun _ => some []) (fun _ _ => none) 1).2.2 = [Ev.send 1, Ev.sleep]
    ∧ (send_one_file (fun _ => some []) (fun _ _ => none) 1).1 = false := by
  constructor <;> rfl

/-- Claim C8 (amended): whenever a delivery attempt fails to obtain an
ACK, the orchestrator records a no-ack error and waits one fixed backoff
unit after every failed attempt — including the final one — before
returning failure: an all-fail run of `N ≥ 1` attempts produces the
trace `failTrace 1 N`, which contains exactly `N` sleeps. -/
theorem C8_backoff_after_every_failure (read : Nat → Option (List Nat))
    (tr : List Nat → Nat → Option (List Nat)) (N : Nat) (hN : 1 ≤ N)
    (hfail : ∀ k, 1 ≤ k → k ≤ N → ∃ p, read k = some p ∧ tr p k = none) :
    (send_one_file read tr N).2.2 = failTrace 1 N
    ∧ (send_one_file read tr N).2.1.error = some "no_ack_or_timeout"
    ∧ (failTrace 1 N).count Ev.sleep = N := by
  have hrun := send_go_all_fail read tr N 1 ⟨0, none, none, none⟩ [] hN
    (fun k hk1 hk2 => hfail k hk1 (by omega))
  refine ⟨?_, ?_, ?_⟩
  · unfold send_one_file
    rw [hrun]
    simp
  · unfold send_one_file
    rw [hrun]
  · have hcount : ∀ (n a : Nat), (failTrace a n).count Ev.sleep = n := by
      intro n
      induction n with
      | zero => intro a; simp [failTrace]
      | succ n ih =>
        intro a
        simp only [failTrace, List.count_cons, ih]
        have e1 : (Ev.sleep == Ev.sleep) = true := rfl
        have e2 : (Ev.send a == Ev.sleep) = false := rfl
        rw [e1, e2]
        simp
    exact hcount N 1

/-- Witness for the amended C8 at one attempt. -/
theorem C8_backoff_after_every_failure_witness :
    (send_one_file (fun _ => some []) (fun _ _ => none) 1).2.2 = failTrace 1 1
    ∧ (send_one_file (fun _ => some []) (fun _ _ => none) 1).2.1.error
        = some "no_ack_or_timeout"
    ∧ (failTrace 1 1).count Ev.sleep = 1 :=
  C8_backoff_after_every_failure (fun _ => some []) (fun _ _ => none) 1 (by omega)
    (fun k hk1 hk2 => ⟨[], rfl, rfl⟩)

/-- Claim C10: when delivery succeeds at attempt `K ≥ 2` after failed
attempts, the returned record has the ack populated and still carries
the no-ack error recorded by the last failed attempt: the error field is
never cleared on a later success. -/
theorem C10_error_not_cleared (read : Nat → Option (List Nat))
    (tr : List Nat → Nat → Option (List Nat)) (N K : Nat) (resp : List Nat)
    (hK1 : 2 ≤ K) (hK2 : K ≤ N)
    (hfail : ∀ k, 1 ≤ k → k < K → ∃ p, read k = some p ∧ tr p k = none)
    (hsucc : ∃ p, read K = some p ∧ tr p K = some resp) :
    (send_one_file read tr N).1 = true
    ∧ (send_one_file read tr N).2.1.ack = some resp
    ∧ (send_one_file read tr N).2.1.error = some "no_ack_or_timeout" := by
  unfold send_one_file
  rw [send_go_first_ack read tr resp N 1 K _ _ (by omega) (by omega) hfail hsucc]
  simp
  omega

/-- Witness for C10: failure at attempt 1, success at attempt 2. -/
theorem C10_error_not_cleared_witness :
    (send_one_file (fun _ => some []) (fun _ k => if k = 2 then some [65] else none) 2).1 = true
    ∧ (send_one_file (fun _ => some []) (fun _ k => if k = 2 then some [65] else none) 2).2.1.ack = some [65]
    ∧ (send_one_file (fun _ => some []) (fun _ k => if k = 2 then some [65] else none) 2).2.1.error
        = some "no_ack_or_timeout" := by
  refine C10_error_not_cleared (fun _ => some []) (fun _ k => if k = 2 then some [65] else none)
    2 2 [65] (by omega) (by omega) ?_ ?_
  · intro k hk1 hk2
    exact ⟨[], rfl, by simp; omega⟩
  · exact ⟨[], rfl, by simp⟩

/-! ### Transport client (`mllp_send`)

The network is abstracted as an oracle: whether the connect raises
(caught by `except Exception: return None`), whether the TLS handshake
raises (caught, raw socket closed, `return None`), what each `recv`
yields (`socket.timeout` raised and caught, an empty chunk for a closed
peer, or a data chunk), and whether the elapsed-time check
`time.time() - start > timeout` fires after a given recv step.  The
receive loop is embedded with fuel; all the failure conditions of C7
exit the loop at the step where they occur, independently of remaining
fuel. -/

/-- Outcome of one `conn.recv(4096)` call. -/
inductive RecvStep where
  | chunk (data : List Nat)
  | timeoutErr
  | closed
deriving DecidableEq, Repr

/-- A network behaviour. -/
structure Net where
  connectOk : Bool
  handshakeOk : Bool
  recv : Nat → RecvStep
  elapsed : Nat → Bool

/-- The `while True` receive loop of `mllp_send`: step index `s`, current
buffer `buf`.  Returns the first decoded frame, or `none` for a caught
timeout, a closed peer, or an exceeded deadline. -/
def recv_loop (net : Net) : Nat → Nat → List Nat → Option (List Nat)
  | 0, _, _ => none
  | fuel + 1, s, buf =>
    match net.recv s with
    | RecvStep.timeoutErr => none
    | RecvStep.closed => none
    | RecvStep.chunk c =>
      match extract_frames (buf ++ c) with
      | (f :: _, _) => some f
      | ([], buf') =>
        if net.elapsed s then none else recv_loop net fuel (s + 1) buf'

/-- `mllp_send(host, port, payload, timeout, tls, cafile)`: connect
(failure caught, `None`), optional TLS handshake (failure caught, raw
socket closed, `None`), send one frame, then the receive loop.  The
`finally` clause only closes the socket and does not alter the result. -/
def mllp_send (net : Net) (tls : Bool) (fuel : Nat) : Option (List Nat) :=
  if !net.connectOk then none
  else if tls && !net.handshakeOk then none
  else recv_loop net fuel 0 []

/-- Claim C7: each failure condition of the transport client — connect
error, TLS handshake error, read timeout, peer closed without a complete
frame, elapsed time exceeding the timeout — produces a returned failure
(`none`), mirroring the source where each of these paths is caught or
returns, rather than raising to the caller. -/
theorem C7_failures_returned (net : Net) (tls : Bool) (fuel : Nat) :
    (net.connectOk = false → mllp_send net tls fuel = none)
    ∧ (tls = true → net.handshakeOk = false → mllp_send net tls fuel = none)
    ∧ (∀ s buf, net.recv s = RecvStep.timeoutErr → recv_loop net (fuel + 1) s buf = none)
    ∧ (∀ s buf, net.recv s = RecvStep.closed → recv_loop net (fuel + 1) s buf = none)
    ∧ (∀ s buf c buf', net.recv s = RecvStep.chunk c →
        extract_frames (buf ++ c) = ([], buf') → net.elapsed s = true →
        recv_loop net (fuel + 1) s buf = none) := by
  refine ⟨?_, ?_, ?_, ?_, ?_⟩
  · intro h; simp [mllp_send, h]
  · intro ht h; simp [mllp_send, ht, h]
  · intro s buf h; simp [recv_loop, h]
  · intro s buf h; simp [recv_loop, h]
  · intro s buf c buf' hrecv hext helap
    simp [recv_loop, hrecv, hext, helap]

/-- Witness for C7: a network that times out on the first read. -/
theorem C7_failures_returned_witness :
    mllp_send ⟨false, true, fun _ => RecvStep.timeoutErr, fun _ => false⟩ false 5 = none
    ∧ recv_loop ⟨true, true, fun _ => RecvStep.timeoutErr, fun _ => false⟩ 5 0 [] = none := by
  constructor
  · exact (C7_failures_returned ⟨false, true, fun _ => RecvStep.timeoutErr, fun _ => false⟩
      false 5).1 rfl
  · exact (C7_failures_returned ⟨true, true, fun _ => RecvStep.timeoutErr, fun _ => false⟩
      false 4).2.2.1 0 [] rfl

/-! ### Pipeline state store: directories

A directory is an association list from file names (byte lists, matching
Python's code-point comparison on ASCII names) to file contents.
`writeF` models writing/overwriting a file, `eraseF` removing one, as
done by `shutil.copy2`, `open(...,"w")` and `shutil.move`. -/

/-- File names as byte lists. -/
abbrev Name := List Nat

/-- A directory: an association list of (name, content). A real directory
listing has no duplicate names (`NodupKeys` below). -/
abbrev Dir := List (Name × List Nat)

def lookupF : Dir → Name → Option (List Nat)
  | [], _ => none
  | (k, v) :: d, n => if k = n then some v else lookupF d n

/-- `os.path.exists` inside the modelled directory. -/
def containsF (d : Dir) (n : Name) : Bool := (lookupF d n).isSome

/-- Write (create or overwrite) a file. -/
def writeF (d : Dir) (n : Name) (v : List Nat) : Dir :=
  if containsF d n then d.map (fun p => if p.1 = n then (n, v) else p)
  else d ++ [(n, v)]

/-- Remove a file. -/
def eraseF : Dir → Name → Dir
  | [], _ => []
  | (k, v) :: d, n => if k = n then d else (k, v) :: eraseF d n

def keysOf (d : Dir) : List Name := d.map Prod.fst

def NodupKeys (d : Dir) : Prop := (keysOf d).Nodup

lemma containsF_iff_mem (d : Dir) (n : Name) :
    containsF d n = true ↔ n ∈ keysOf d := by
  induction d with
  | nil => simp [containsF, lookupF, keysOf]
  | cons p d ih =>
    obtain ⟨k, v⟩ := p
    by_cases hk : k = n
    · subst hk
      simp [containsF, lookupF, keysOf]
    · simp only [containsF, lookupF, if_neg hk, keysOf, List.map_cons, List.mem_cons]
      rw [← keysOf]
      constructor
      · intro h
        exact Or.inr ((ih).mp h)
      · intro h
        rcases h with h | h
        · exact absurd h.symm hk
        · exact ih.mpr h

lemma containsF_false_not_mem {d : Dir} {n : Name} (h : containsF d n = false) :
    n ∉ keysOf d := by
  intro hmem
  rw [← containsF_iff_mem] at hmem
  rw [h] at hmem
  exact absurd hmem (by simp)

lemma lookupF_append (d e : Dir) (n : Name) :
    lookupF (d ++ e) n = match lookupF d n with | some v => some v | none => lookupF e n := by
  induction d with
  | nil => simp [lookupF]
  | cons p d ih =>
    obtain ⟨k, v⟩ := p
    by_cases hk : k = n
    · simp [lookupF, hk]
    · simp [lookupF, hk, ih]

lemma lookup_map_write_self {n : Name} (v : List Nat) :
    ∀ {d : Dir}, containsF d n = true →
      lookupF (d.map (fun p => if p.1 = n then (n, v) else p)) n = some v := by
  intro d
  induction d with
  | nil => intro hc; simp [containsF, lookupF] at hc
  | cons p d ih =>
    intro hc
    obtain ⟨k, v'⟩ := p
    rw [List.map_cons]
    by_cases hk : k = n
    · have hhead : (if ((k, v') : Name × List Nat).1 = n then ((n, v) : Name × List Nat)
          else (k, v')) = (n, v) := by simp [hk]
      rw [hhead]
      simp [lookupF]
    · have hhead : (if ((k, v') : Name × List Nat).1 = n then ((n, v) : Name × List Nat)
          else (k, v')) = (k, v') := by simp [hk]
      rw [hhead]
      simp only [lookupF]
      rw [if_neg hk]
      apply ih
      simp only [containsF, lookupF, if_neg hk] at hc
      exact hc

lemma lookup_write_self (d : Dir) (n : Name) (v : List Nat) :
    lookupF (writeF d n v) n = some v := by
  unfold writeF
  by_cases hc : containsF d n
  · rw [if_pos hc]
    exact lookup_map_write_self v hc
  · rw [if_neg hc]
    rw [lookupF_append]
    have hnone : lookupF d n = none := by
      cases h : lookupF d n with
      | none => rfl
      | some w => exact absurd (by unfold containsF; rw [h]; rfl) hc
    rw [hnone]
    simp [lookupF]

lemma lookup_map_write_ne {m n : Name} (h : m ≠ n) (v : List Nat) :
    ∀ (d : Dir),
      lookupF (d.map (fun p => if p.1 = n then (n, v) else p)) m = lookupF d m := by
  have hnm : ¬ (n = m) := fun hh => h hh.symm
  intro d
  induction d with
  | nil => rfl
  | cons p d ih =>
    obtain ⟨k, v'⟩ := p
    rw [List.map_cons]
    by_cases hk : k = n
    · have hhead : (if ((k, v') : Name × List Nat).1 = n then ((n, v) : Name × List Nat)
          else (k, v')) = (n, v) := by simp [hk]
      rw [hhead]
      simp only [lookupF]
      rw [if_neg hnm, if_neg (fun hh : k = m => hnm (hk ▸ hh))]
      exact ih
    · have hhead : (if ((k, v') : Name × List Nat).1 = n then ((n, v) : Name × List Nat)
          else (k, v')) = (k, v') := by simp [hk]
      rw [hhead]
      simp only [lookupF]
      by_cases hkm : k = m
      · rw [if_pos hkm, if_pos hkm]
      · rw [if_neg hkm, if_neg hkm]
        exact ih

lemma lookup_write_ne (d : Dir) {m n : Name} (h : m ≠ n) (v : List Nat) :
    lookupF (writeF d n v) m = lookupF d m := by
  unfold writeF
  by_cases hc : containsF d n
  · rw [if_pos hc]
    exact lookup_map_write_ne h v d
  · rw [if_neg hc, lookupF_append]
    cases hdm : lookupF d m with
    | some w => rfl
    | none =>
      simp only [lookupF]
      rw [if_neg (fun hh : n = m => h hh.symm)]

lemma lookup_erase_ne (d : Dir) {m n : Name} (h : m ≠ n) :
    lookupF (eraseF d n) m = lookupF d m := by
  induction d with
  | nil => rfl
  | cons p d ih =>
    obtain ⟨k, v'⟩ := p
    simp only [eraseF]
    by_cases hk : k = n
    · rw [if_pos hk]
      have hkm : ¬ (k = m) := fun hh => h (hh.symm.trans hk)
      conv_rhs => rw [lookupF]
      rw [if_neg hkm]
    · rw [if_neg hk]
      simp only [lookupF]
      by_cases hkm : k = m
      · rw [if_pos hkm, if_pos hkm]
      · rw [if_neg hkm, if_neg hkm]
        exact ih

lemma contains_erase_self {d : Dir} (hnd : NodupKeys d) (n : Name) :
    containsF (eraseF d n) n = false := by
  induction d with
  | nil => rfl
  | cons p d ih =>
    obtain ⟨k, v'⟩ := p
    have hndk : NodupKeys d := by
      unfold NodupKeys keysOf at hnd ⊢
      simp only [List.map_cons] at hnd
      exact hnd.of_cons
    simp only [eraseF]
    by_cases hk : k = n
    · rw [if_pos hk]
      have hknot : n ∉ keysOf d := by
        unfold NodupKeys keysOf at hnd
        simp only [List.map_cons, List.nodup_cons] at hnd
        rw [← hk]
        exact hnd.1
      cases hcc : containsF d n with
      | false => rfl
      | true => exact absurd (containsF_iff_mem d n |>.mp hcc) hknot
    · rw [if_neg hk]
      simp only [containsF, lookupF, if_neg hk]
      exact ih hndk

lemma keys_write (d : Dir) (n : Name) (v : List Nat) :
    keysOf (writeF d n v) = if containsF d n then keysOf d else keysOf d ++ [n] := by
  unfold writeF
  by_cases hc : containsF d n
  · rw [if_pos hc, if_pos hc]
    unfold keysOf
    rw [List.map_map]
    apply List.map_congr_left
    intro p _
    by_cases hp : p.1 = n
    · simp [hp]
    · simp [hp]
  · rw [if_neg hc, if_neg hc]
    unfold keysOf
    simp

lemma nodup_write {d : Dir} (hnd : NodupKeys d) (n : Name) (v : List Nat) :
    NodupKeys (writeF d n v) := by
  unfold NodupKeys at hnd ⊢
  rw [keys_write]
  by_cases hc : containsF d n
  · rw [if_pos hc]
    exact hnd
  · rw [if_neg hc]
    have hnot : n ∉ keysOf d := containsF_false_not_mem (by
      cases hcc : containsF d n with
      | false => rfl
      | true => exact absurd hcc hc)
    simp [List.nodup_append, hnd, hnot]

lemma keys_erase_sublist (d : Dir) (n : Name) :
    (keysOf (eraseF d n)).Sublist (keysOf d) := by
  induction d with
  | nil => simp [eraseF, keysOf]
  | cons p d ih =>
    obtain ⟨k, v'⟩ := p
    by_cases hk : k = n
    · simp only [eraseF, if_pos hk, keysOf, List.map_cons]
      exact List.sublist_cons_of_sublist k (List.Sublist.refl _)
    · simp only [eraseF, if_neg hk, keysOf, List.map_cons]
      exact List.Sublist.cons₂ k ih

lemma nodup_erase {d : Dir} (hnd : NodupKeys d) (n : Name) :
    NodupKeys (eraseF d n) :=
  List.Nodup.sublist (keys_erase_sublist d n) hnd

lemma contains_write_self (d : Dir) (n : Name) (v : List Nat) :
    containsF (writeF d n v) n = true := by
  unfold containsF
  rw [lookup_write_self]
  rfl

lemma contains_write_ne (d : Dir) {m n : Name} (h : m ≠ n) (v : List Nat) :
    containsF (writeF d n v) m = containsF d m := by
  unfold containsF
  rw [lookup_write_ne d h]

lemma contains_erase_ne (d : Dir) {m n : Name} (h : m ≠ n) :
    containsF (eraseF d n) m = containsF d m := by
  unfold containsF
  rw [lookup_erase_ne d h]

lemma contains_some {d : Dir} {n : Name} (h : containsF d n = true) :
    ∃ v, lookupF d n = some v := by
  unfold containsF at h
  cases hl : lookupF d n with
  | none => rw [hl] at h; exact absurd h (by simp)
  | some v => exact ⟨v, rfl⟩

lemma contains_false_lookup {d : Dir} {n : Name} (h : containsF d n = false) :
    lookupF d n = none := by
  unfold containsF at h
  cases hl : lookupF d n with
  | none => rfl
  | some v => rw [hl] at h; exact absurd h (by simp)

/-! ### Sorting of the Ready snapshot

Python's `sorted` on filenames compares strings lexicographically by
code point; on the modelled byte-list names this is `lexLe`.  Directory
listings have distinct names, and any sorting algorithm produces the
same (unique) sorted permutation on duplicate-free input, so `sorted` is
embedded as insertion sort. -/

/-- Lexicographic comparison of names (Python string `<=`). -/
def lexLe : Name → Name → Bool
  | [], _ => true
  | _ :: _, [] => false
  | a :: s, b :: t => if a < b then true else if b < a then false else lexLe s t

lemma lexLe_total : ∀ x y : Name, lexLe x y = true ∨ lexLe y x = true := by
  intro x
  induction x with
  | nil => intro y; left; rfl
  | cons a s ih =>
    intro y
    cases y with
    | nil => right; rfl
    | cons b t =>
      rcases Nat.lt_trichotomy a b with h | h | h
      · left; simp [lexLe, h]
      · subst h
        simp only [lexLe, Nat.lt_irrefl, if_false]
        exact ih t
      · right; simp [lexLe, h]

lemma lexLe_trans : ∀ (x y z : Name),
    lexLe x y = true → lexLe y z = true → lexLe x z = true := by
  intro x
  induction x with
  | nil => intro y z _ _; rfl
  | cons a s ih =>
    intro y z hxy hyz
    cases y with
    | nil => simp [lexLe] at hxy
    | cons b t =>
      cases z with
      | nil => simp [lexLe] at hyz
      | cons c u =>
        simp only [lexLe] at hxy hyz ⊢
        by_cases hab : a < b
        · by_cases hbc : b < c
          · rw [if_pos (show a < c by omega)]
          · by_cases hcb : c < b
            · rw [if_neg hbc, if_pos hcb] at hyz
              exact absurd hyz (by simp)
            · rw [if_pos (show a < c by omega)]
        · by_cases hba : b < a
          · rw [if_neg hab, if_pos hba] at hxy
            exact absurd hxy (by simp)
          · by_cases hbc : b < c
            · rw [if_pos (show a < c by omega)]
            · by_cases hcb : c < b
              · rw [if_neg hbc, if_pos hcb] at hyz
                exact absurd hyz (by simp)
              · rw [if_neg (show ¬ a < c by omega), if_neg (show ¬ c < a by omega)]
                rw [if_neg hab, if_neg hba] at hxy
                rw [if_neg hbc, if_neg hcb] at hyz
                exact ih t u hxy hyz

/-- A proper extension of a name sorts strictly after it. -/
lemma lexLe_append_self : ∀ (l t : Name), t ≠ [] → lexLe (l ++ t) l = false := by
  intro l
  induction l with
  | nil =>
    intro t ht
    cases t with
    | nil => exact absurd rfl ht
    | cons c t' => rfl
  | cons a l ih =>
    intro t ht
    simp only [List.cons_append, lexLe, Nat.lt_irrefl, if_false]
    exact ih t ht

def insertSorted (a : Name) : List Name → List Name
  | [] => [a]
  | b :: l => if lexLe a b then a :: b :: l else b :: insertSorted a l

/-- `sorted(names)` (insertion sort; see the section comment). -/
def sortNames : List Name → List Name
  | [] => []
  | a :: l => insertSorted a (sortNames l)

lemma insertSorted_perm (a : Name) : ∀ l, (insertSorted a l).Perm (a :: l) := by
  intro l
  induction l with
  | nil => exact List.Perm.refl _
  | cons b l ih =>
    simp only [insertSorted]
    by_cases h : lexLe a b = true
    · rw [if_pos h]
    · rw [if_neg h]
      exact (ih.cons b).trans (List.Perm.swap a b l)

lemma sortNames_perm : ∀ l, (sortNames l).Perm l := by
  intro l
  induction l with
  | nil => exact List.Perm.refl _
  | cons a l ih =>
    simp only [sortNames]
    exact (insertSorted_perm a (sortNames l)).trans (ih.cons a)

lemma pairwise_insertSorted (a : Name) :
    ∀ {l : List Name}, l.Pairwise (fun x y => lexLe x y = true) →
      (insertSorted a l).Pairwise (fun x y => lexLe x y = true) := by
  intro l
  induction l with
  | nil => intro _; simp [insertSorted]
  | cons b l ih =>
    intro hp
    rw [List.pairwise_cons] at hp
    obtain ⟨hb, hl⟩ := hp
    simp only [insertSorted]
    by_cases h : lexLe a b = true
    · rw [if_pos h, List.pairwise_cons]
      constructor
      · intro x hx
        rcases List.mem_cons.mp hx with rfl | hx'
        · exact h
        · exact lexLe_trans a b x h (hb x hx')
      · rw [List.pairwise_cons]
        exact ⟨hb, hl⟩
    · rw [if_neg h, List.pairwise_cons]
      constructor
      · intro x hx
        have hx' := (insertSorted_perm a l).mem_iff.mp hx
        rcases List.mem_cons.mp hx' with rfl | hx''
        · rcases lexLe_total x b with h1 | h1
          · exact absurd h1 h
          · exact h1
        · exact hb x hx''
      · exact ih hl

lemma sortNames_pairwise : ∀ l, (sortNames l).Pairwise (fun x y => lexLe x y = true) := by
  intro l
  induction l with
  | nil => simp [sortNames]
  | cons a l ih =>
    simp only [sortNames]
    exact pairwise_insertSorted a ih

/-! ### Pipeline state and `move_to_ready` -/

/-- The four modelled directories (`generated` is external input and
enters only as the source content handed to `move_to_ready`). -/
structure PState where
  ready : Dir
  sent : Dir
  failed : Dir
  archive : Dir

/-- `META_EXT = ".meta.json"`. -/
def META_EXT : Name := [46, 109, 101, 116, 97, 46, 106, 115, 111, 110]

/-- Sidecar metadata content: the JSON dict is abstracted to the bytes
of its error note (`none gives the empty record`); the claims only
inspect presence and the validation note. -/
def metaBytes (err : Option String) : List Nat :=
  match err with
  | some e => strBytes e
  | none => []

/-- `move_to_ready(path, force)`: raises `FileExistsError` (the
`ConflictError` of the spec) before copying anything when the
destination name is occupied and `force` is unset; otherwise copies the
payload and writes fresh `{"moved_at", "src"}` sidecar metadata.  The
result pairs the state after the call with the outcome (`Except.error`
models the raised `FileExistsError` carrying the destination name). -/
def move_to_ready (st : PState) (base : Name) (content : List Nat) (force : Bool) :
    PState × Except Name Name :=
  if containsF st.ready base && !force then (st, Except.error base)
  else
    ({ st with ready := writeF (writeF st.ready base content) (base ++ META_EXT) (metaBytes (some "moved_at")) },
     Except.ok base)

lemma append_meta_ne (n : Name) : n ++ META_EXT ≠ n := by
  intro h
  have := congrArg List.length h
  simp [META_EXT] at this

/-- Claim C6: promoting a document whose basename already occupies Ready
without `force` fails with the conflict error and leaves the state — in
particular the Ready directory — unchanged; with `force` it succeeds and
overwrites the entry (and writes the sidecar). -/
theorem C6_conflict_on_occupied (st : PState) (base : Name) (content : List Nat)
    (hocc : containsF st.ready base = true) :
    move_to_ready st base content false = (st, Except.error base)
    ∧ (∃ st', move_to_ready st base content true = (st', Except.ok base)
        ∧ lookupF st'.ready base = some content
        ∧ containsF st'.ready (base ++ META_EXT) = true
        ∧ st'.sent = st.sent ∧ st'.failed = st.failed ∧ st'.archive = st.archive) := by
  constructor
  · unfold move_to_ready
    rw [if_pos (by rw [hocc]; rfl)]
  · refine ⟨{ st with ready := writeF (writeF st.ready base content) (base ++ META_EXT) (metaBytes (some "moved_at")) },
      ?_, ?_, ?_, rfl, rfl, rfl⟩
    · unfold move_to_ready
      rw [if_neg (by rw [hocc]; simp)]
    · show lookupF (writeF (writeF st.ready base content) (base ++ META_EXT) (metaBytes (some "moved_at"))) base = some content
      rw [lookup_write_ne _ (fun h => append_meta_ne base h.symm) _, lookup_write_self]
    · show containsF (writeF (writeF st.ready base content) (base ++ META_EXT) (metaBytes (some "moved_at"))) (base ++ META_EXT) = true
      exact contains_write_self _ _ _

/-! ### `process_ready_queue`

The delivery outcome of `send_one_file` for a given file depends on the
network; it is abstracted as an oracle `sendOk : Name → Bool` (claim C1
holds for every outcome; C4/C8/C10 verify `send_one_file` itself). -/

/-- Byte-wise `str.lower()` (ASCII). -/
def lowerByte (b : Nat) : Nat := if 65 ≤ b ∧ b ≤ 90 then b + 32 else b

/-- `".edi"`. -/
def EDI_EXT : Name := [46, 101, 100, 105]

/-- The snapshot predicate `f.lower().endswith(".edi") or True` of
`process_ready_queue`. -/
def ready_filter (f : Name) : Bool := EDI_EXT.isSuffixOf (f.map lowerByte) || true

/-- The relocation block shared by the three outcome paths of
`process_ready_queue`'s loop body: `write_meta_for_send(fpath, meta)`
(fresh sidecar in Ready), `shutil.move(fpath, dest)` (payload), then the
sidecar move guarded by existence (the success path guards it with
`try/except` instead, which is equivalent).  Returns the new Ready
directory and the new destination directory. -/
def moveDoc (ready dest : Dir) (fname : Name) (payload : List Nat) (mc : List Nat) :
    Dir × Dir :=
  if containsF (eraseF (writeF ready (fname ++ META_EXT) mc) fname) (fname ++ META_EXT) then
    (eraseF (eraseF (writeF ready (fname ++ META_EXT) mc) fname) (fname ++ META_EXT),
     writeF (writeF dest fname payload) (fname ++ META_EXT)
       ((lookupF (eraseF (writeF ready (fname ++ META_EXT) mc) fname) (fname ++ META_EXT)).getD []))
  else
    (eraseF (writeF ready (fname ++ META_EXT) mc) fname,
     writeF dest fname payload)

/-- The body of `process_ready_queue`'s loop for one snapshot entry:
skip if no longer a file; validate; invalid → Failed with the validation
note; valid → deliver (oracle) and move to Sent (plus optional Archived
copies) or Failed. -/
def process_one (sendOk : Name → Bool) (archiveOnSent : Bool) (st : PState) (fname : Name) :
    PState :=
  match lookupF st.ready fname with
  | none => st
  | some payload =>
    if (basic_validate_edifact_bytes payload).1 = false then
      { st with
        ready := (moveDoc st.ready st.failed fname payload
          (metaBytes (some ("validation_failed:" ++ (basic_validate_edifact_bytes payload).2)))).1,
        failed := (moveDoc st.ready st.failed fname payload
          (metaBytes (some ("validation_failed:" ++ (basic_validate_edifact_bytes payload).2)))).2 }
    else if sendOk fname then
      { st with
        ready := (moveDoc st.ready st.sent fname payload (metaBytes none)).1,
        sent := (moveDoc st.ready st.sent fname payload (metaBytes none)).2,
        archive :=
          if archiveOnSent then
            if containsF (moveDoc st.ready st.sent fname payload (metaBytes none)).2
                (fname ++ META_EXT) then
              writeF (writeF st.archive fname payload) (fname ++ META_EXT)
                ((lookupF (moveDoc st.ready st.sent fname payload (metaBytes none)).2
                  (fname ++ META_EXT)).getD [])
            else writeF st.archive fname payload
          else st.archive }
    else
      { st with
        ready := (moveDoc st.ready st.failed fname payload (metaBytes (some "no_ack_or_timeout"))).1,
        failed := (moveDoc st.ready st.failed fname payload (metaBytes (some "no_ack_or_timeout"))).2 }

/-- `process_ready_queue(...)`: snapshot the Ready directory (`sorted`
+ the vacuous filter), then process each entry in order. -/
def process_ready_queue (sendOk : Name → Bool) (archiveOnSent : Bool) (st : PState) : PState :=
  (sortNames ((keysOf st.ready).filter ready_filter)).foldl (process_one sendOk archiveOnSent) st

/-- `moveDoc` always finds the sidecar it just wrote, so it reduces to
two erases and two writes. -/
lemma moveDoc_eq (ready dest : Dir) (fname : Name) (payload : List Nat) (mc : List Nat) :
    moveDoc ready dest fname payload mc
      = (eraseF (eraseF (writeF ready (fname ++ META_EXT) mc) fname) (fname ++ META_EXT),
         writeF (writeF dest fname payload) (fname ++ META_EXT) mc) := by
  unfold moveDoc
  have hlook : lookupF (eraseF (writeF ready (fname ++ META_EXT) mc) fname)
      (fname ++ META_EXT) = some mc := by
    rw [lookup_erase_ne _ (append_meta_ne fname), lookup_write_self]
  rw [if_pos (by unfold containsF; rw [hlook]; rfl), hlook]
  rfl

/-- Entries that are no longer present (already moved along with their
document earlier in the run) are skipped. -/
lemma process_one_not_present {sendOk : Name → Bool} {archiveOnSent : Bool} {st : PState}
    {fname : Name} (h : containsF st.ready fname = false) :
    process_one sendOk archiveOnSent st fname = st := by
  unfold process_one
  rw [contains_false_lookup h]

/-- Field characterization: invalid document. -/
lemma process_one_invalid (sendOk : Name → Bool) (archiveOnSent : Bool) {st : PState}
    {fname : Name} {payload : List Nat} (hv : lookupF st.ready fname = some payload)
    (hval : (basic_validate_edifact_bytes payload).1 = false) :
    (process_one sendOk archiveOnSent st fname).ready
      = eraseF (eraseF (writeF st.ready (fname ++ META_EXT)
          (metaBytes (some ("validation_failed:" ++ (basic_validate_edifact_bytes payload).2)))) fname)
          (fname ++ META_EXT)
    ∧ (process_one sendOk archiveOnSent st fname).failed
      = writeF (writeF st.failed fname payload) (fname ++ META_EXT)
          (metaBytes (some ("validation_failed:" ++ (basic_validate_edifact_bytes payload).2)))
    ∧ (process_one sendOk archiveOnSent st fname).sent = st.sent := by
  unfold process_one
  simp only [hv]
  rw [if_pos hval, moveDoc_eq]
  exact ⟨rfl, rfl, rfl⟩

/-- Field characterization: valid document, delivery succeeds. -/
lemma process_one_valid_sent (sendOk : Name → Bool) (archiveOnSent : Bool) {st : PState}
    {fname : Name} {payload : List Nat} (hv : lookupF st.ready fname = some payload)
    (hval : (basic_validate_edifact_bytes payload).1 = true) (hsend : sendOk fname = true) :
    (process_one sendOk archiveOnSent st fname).ready
      = eraseF (eraseF (writeF st.ready (fname ++ META_EXT) (metaBytes none)) fname)
          (fname ++ META_EXT)
    ∧ (process_one sendOk archiveOnSent st fname).sent
      = writeF (writeF st.sent fname payload) (fname ++ META_EXT) (metaBytes none)
    ∧ (process_one sendOk archiveOnSent st fname).failed = st.failed := by
  unfold process_one
  simp only [hv]
  have hval' : ¬ ((basic_validate_edifact_bytes payload).1 = false) := by
    rw [hval]; simp
  rw [if_neg hval', if_pos hsend, moveDoc_eq]
  exact ⟨rfl, rfl, rfl⟩

/-- Field characterization: valid document, delivery fails. -/
lemma process_one_valid_failed (sendOk : Name → Bool) (archiveOnSent : Bool) {st : PState}
    {fname : Name} {payload : List Nat} (hv : lookupF st.ready fname = some payload)
    (hval : (basic_validate_edifact_bytes payload).1 = true) (hsend : sendOk fname = false) :
    (process_one sendOk archiveOnSent st fname).ready
      = eraseF (eraseF (writeF st.ready (fname ++ META_EXT)
          (metaBytes (some "no_ack_or_timeout"))) fname) (fname ++ META_EXT)
    ∧ (process_one sendOk archiveOnSent st fname).failed
      = writeF (writeF st.failed fname payload) (fname ++ META_EXT)
          (metaBytes (some "no_ack_or_timeout"))
    ∧ (process_one sendOk archiveOnSent st fname).sent = st.sent := by
  unfold process_one
  simp only [hv]
  have hval' : ¬ ((basic_validate_edifact_bytes payload).1 = false) := by
    rw [hval]; simp
  have hsend' : ¬ (sendOk fname = true) := by
    rw [hsend]; simp
  rw [if_neg hval', if_neg hsend', moveDoc_eq]
  exact ⟨rfl, rfl, rfl⟩

lemma bool_true_of_not_false {b : Bool} (h : ¬ b = false) : b = true := by
  cases b
  · exact absurd rfl h
  · rfl

lemma bool_false_of_not_true {b : Bool} (h : ¬ b = true) : b = false := by
  cases b
  · rfl
  · exact absurd rfl h

lemma contains_congr {d e : Dir} {n : Name} (h : lookupF d n = lookupF e n) :
    containsF d n = containsF e n := by
  unfold containsF
  rw [h]

/-- After a relocation, neither the document nor its sidecar remains in Ready. -/
lemma ready_after_move {R : Dir} (hnd : NodupKeys R) (n : Name) (mc : List Nat) :
    containsF (eraseF (eraseF (writeF R (n ++ META_EXT) mc) n) (n ++ META_EXT)) n = false
    ∧ containsF (eraseF (eraseF (writeF R (n ++ META_EXT) mc) n) (n ++ META_EXT))
        (n ++ META_EXT) = false := by
  constructor
  · rw [contains_erase_ne _ (fun h : n = n ++ META_EXT => append_meta_ne n h.symm)]
    exact contains_erase_self (nodup_write hnd (n ++ META_EXT) mc) n
  · exact contains_erase_self (nodup_erase (nodup_write hnd (n ++ META_EXT) mc) n) (n ++ META_EXT)

/-- After a relocation, the destination holds the payload under the
document name and the metadata under the sidecar name. -/
lemma dest_after_move (D : Dir) (n : Name) (payload mc : List Nat) :
    lookupF (writeF (writeF D n payload) (n ++ META_EXT) mc) n = some payload
    ∧ lookupF (writeF (writeF D n payload) (n ++ META_EXT) mc) (n ++ META_EXT) = some mc := by
  constructor
  · rw [lookup_write_ne _ (fun h : n = n ++ META_EXT => append_meta_ne n h.symm),
      lookup_write_self]
  · exact lookup_write_self _ _ _

/-- One loop step only touches the processed name and its sidecar name:
every other name keeps its entry in each of Ready, Sent and Failed. -/
lemma process_one_preserves (sendOk : Name → Bool) (archiveOnSent : Bool) (st : PState)
    (fname : Name) (q : Name) (hq1 : q ≠ fname) (hq2 : q ≠ fname ++ META_EXT) :
    lookupF (process_one sendOk archiveOnSent st fname).ready q = lookupF st.ready q
    ∧ lookupF (process_one sendOk archiveOnSent st fname).sent q = lookupF st.sent q
    ∧ lookupF (process_one sendOk archiveOnSent st fname).failed q = lookupF st.failed q := by
  cases hl : lookupF st.ready fname with
  | none =>
    rw [process_one_not_present (by unfold containsF; rw [hl]; rfl)]
    exact ⟨rfl, rfl, rfl⟩
  | some payload =>
    by_cases hval : (basic_validate_edifact_bytes payload).1 = false
    · obtain ⟨hr, hfa, hse⟩ :=
        process_one_invalid sendOk archiveOnSent hl hval
      refine ⟨?_, ?_, ?_⟩
      · rw [hr, lookup_erase_ne _ hq2, lookup_erase_ne _ hq1, lookup_write_ne _ hq2]
      · rw [hse]
      · rw [hfa, lookup_write_ne _ hq2, lookup_write_ne _ hq1]
    · have hval' := bool_true_of_not_false hval
      by_cases hsend : sendOk fname = true
      · obtain ⟨hr, hse, hfa⟩ :=
          process_one_valid_sent sendOk archiveOnSent hl hval' hsend
        refine ⟨?_, ?_, ?_⟩
        · rw [hr, lookup_erase_ne _ hq2, lookup_erase_ne _ hq1, lookup_write_ne _ hq2]
        · rw [hse, lookup_write_ne _ hq2, lookup_write_ne _ hq1]
        · rw [hfa]
      · have hsend' := bool_false_of_not_true hsend
        obtain ⟨hr, hfa, hse⟩ :=
          process_one_valid_failed sendOk archiveOnSent hl hval' hsend'
        refine ⟨?_, ?_, ?_⟩
        · rw [hr, lookup_erase_ne _ hq2, lookup_erase_ne _ hq1, lookup_write_ne _ hq2]
        · rw [hse]
        · rw [hfa, lookup_write_ne _ hq2, lookup_write_ne _ hq1]

lemma process_one_nodup_ready {sendOk : Name → Bool} {archiveOnSent : Bool} {st : PState}
    {fname : Name} (hnd : NodupKeys st.ready) :
    NodupKeys (process_one sendOk archiveOnSent st fname).ready := by
  cases hl : lookupF st.ready fname with
  | none =>
    rw [process_one_not_present (by unfold containsF; rw [hl]; rfl)]
    exact hnd
  | some payload =>
    by_cases hval : (basic_validate_edifact_bytes payload).1 = false
    · rw [(process_one_invalid sendOk archiveOnSent hl hval).1]
      exact nodup_erase (nodup_erase (nodup_write hnd _ _) _) _
    · have hval' := bool_true_of_not_false hval
      by_cases hsend : sendOk fname = true
      · rw [(process_one_valid_sent sendOk archiveOnSent hl hval' hsend).1]
        exact nodup_erase (nodup_erase (nodup_write hnd _ _) _) _
      · have hsend' := bool_false_of_not_true hsend
        rw [(process_one_valid_failed sendOk archiveOnSent hl hval' hsend').1]
        exact nodup_erase (nodup_erase (nodup_write hnd _ _) _) _

/-- Processing a document settles it: it leaves Ready (with its sidecar)
and lands in the directory chosen by validation and delivery, with the
validation note recorded in the Failed sidecar when invalid. -/
lemma process_one_settles (sendOk : Name → Bool) (archiveOnSent : Bool) {st : PState}
    {n : Name} {v : List Nat} (hnd : NodupKeys st.ready) (hv : lookupF st.ready n = some v) :
    containsF (process_one sendOk archiveOnSent st n).ready n = false
    ∧ containsF (process_one sendOk archiveOnSent st n).ready (n ++ META_EXT) = false
    ∧ ((basic_validate_edifact_bytes v).1 = false →
        lookupF (process_one sendOk archiveOnSent st n).failed n = some v
        ∧ lookupF (process_one sendOk archiveOnSent st n).failed (n ++ META_EXT)
            = some (metaBytes (some ("validation_failed:" ++ (basic_validate_edifact_bytes v).2)))
        ∧ (process_one sendOk archiveOnSent st n).sent = st.sent)
    ∧ ((basic_validate_edifact_bytes v).1 = true → sendOk n = true →
        lookupF (process_one sendOk archiveOnSent st n).sent n = some v
        ∧ (process_one sendOk archiveOnSent st n).failed = st.failed)
    ∧ ((basic_validate_edifact_bytes v).1 = true → sendOk n = false →
        lookupF (process_one sendOk archiveOnSent st n).failed n = some v
        ∧ (process_one sendOk archiveOnSent st n).sent = st.sent) := by
  by_cases hval : (basic_validate_edifact_bytes v).1 = false
  · obtain ⟨hr, hfa, hse⟩ :=
      process_one_invalid sendOk archiveOnSent hv hval
    refine ⟨?_, ?_, ?_, ?_, ?_⟩
    · rw [hr]; exact (ready_after_move hnd n _).1
    · rw [hr]; exact (ready_after_move hnd n _).2
    · intro _
      exact ⟨by rw [hfa]; exact (dest_after_move _ _ _ _).1,
        by rw [hfa]; exact (dest_after_move _ _ _ _).2, hse⟩
    · intro h _; rw [hval] at h; exact absurd h (by simp)
    · intro h _; rw [hval] at h; exact absurd h (by simp)
  · have hval' := bool_true_of_not_false hval
    by_cases hsend : sendOk n = true
    · obtain ⟨hr, hse, hfa⟩ :=
        process_one_valid_sent sendOk archiveOnSent hv hval' hsend
      refine ⟨?_, ?_, ?_, ?_, ?_⟩
      · rw [hr]; exact (ready_after_move hnd n _).1
      · rw [hr]; exact (ready_after_move hnd n _).2
      · intro h; rw [hval'] at h; exact absurd h (by simp)
      · intro _ _
        exact ⟨by rw [hse]; exact (dest_after_move _ _ _ _).1, hfa⟩
      · intro _ h; rw [hsend] at h; exact absurd h (by simp)
    · have hsend' := bool_false_of_not_true hsend
      obtain ⟨hr, hfa, hse⟩ :=
        process_one_valid_failed sendOk archiveOnSent hv hval' hsend'
      refine ⟨?_, ?_, ?_, ?_, ?_⟩
      · rw [hr]; exact (ready_after_move hnd n _).1
      · rw [hr]; exact (ready_after_move hnd n _).2
      · intro h; rw [hval'] at h; exact absurd h (by simp)
      · intro _ h; rw [hsend'] at h; exact absurd h (by simp)
      · intro _ _
        exact ⟨by rw [hfa]; exact (dest_after_move _ _ _ _).1, hse⟩

/-- Processing a document also settles its sidecar name: the sidecar is
relocated into the same destination directory as the document. -/
lemma process_one_parent (sendOk : Name → Bool) (archiveOnSent : Bool) {st : PState}
    {m : Name} {w : List Nat} (hnd : NodupKeys st.ready) (hw : lookupF st.ready m = some w) :
    containsF (process_one sendOk archiveOnSent st m).ready (m ++ META_EXT) = false
    ∧ containsF (process_one sendOk archiveOnSent st m).ready m = false
    ∧ ((containsF (process_one sendOk archiveOnSent st m).sent (m ++ META_EXT) = true
        ∧ (process_one sendOk archiveOnSent st m).failed = st.failed)
       ∨ (containsF (process_one sendOk archiveOnSent st m).failed (m ++ META_EXT) = true
        ∧ (process_one sendOk archiveOnSent st m).sent = st.sent)) := by
  by_cases hval : (basic_validate_edifact_bytes w).1 = false
  · obtain ⟨hr, hfa, hse⟩ :=
      process_one_invalid sendOk archiveOnSent hw hval
    refine ⟨by rw [hr]; exact (ready_after_move hnd m _).2,
      by rw [hr]; exact (ready_after_move hnd m _).1, Or.inr ⟨?_, hse⟩⟩
    unfold containsF
    rw [hfa, (dest_after_move _ _ _ _).2]
    rfl
  · have hval' := bool_true_of_not_false hval
    by_cases hsend : sendOk m = true
    · obtain ⟨hr, hse, hfa⟩ :=
        process_one_valid_sent sendOk archiveOnSent hw hval' hsend
      refine ⟨by rw [hr]; exact (ready_after_move hnd m _).2,
        by rw [hr]; exact (ready_after_move hnd m _).1, Or.inl ⟨?_, hfa⟩⟩
      unfold containsF
      rw [hse, (dest_after_move _ _ _ _).2]
      rfl
    · have hsend' := bool_false_of_not_true hsend
      obtain ⟨hr, hfa, hse⟩ :=
        process_one_valid_failed sendOk archiveOnSent hw hval' hsend'
      refine ⟨by rw [hr]; exact (ready_after_move hnd m _).2,
        by rw [hr]; exact (ready_after_move hnd m _).1, Or.inr ⟨?_, hse⟩⟩
      unfold containsF
      rw [hfa, (dest_after_move _ _ _ _).2]
      rfl

/-- Refined form of the previous lemma: the document and its sidecar
name land together in the same destination directory — Sent when the
document is valid and delivered, Failed otherwise — while the other
terminal directory is left untouched; the sidecar name is carried along
with fresh metadata content, its previous content never inspected. -/
lemma process_one_parent_pair (sendOk : Name → Bool) (archiveOnSent : Bool) {st : PState}
    {m : Name} {w : List Nat} (hnd : NodupKeys st.ready) (hw : lookupF st.ready m = some w) :
    containsF (process_one sendOk archiveOnSent st m).ready m = false
    ∧ containsF (process_one sendOk archiveOnSent st m).ready (m ++ META_EXT) = false
    ∧ ((containsF (process_one sendOk archiveOnSent st m).sent m = true
        ∧ containsF (process_one sendOk archiveOnSent st m).sent (m ++ META_EXT) = true
        ∧ (process_one sendOk archiveOnSent st m).failed = st.failed)
       ∨ (containsF (process_one sendOk archiveOnSent st m).failed m = true
        ∧ containsF (process_one sendOk archiveOnSent st m).failed (m ++ META_EXT) = true
        ∧ (process_one sendOk archiveOnSent st m).sent = st.sent)) := by
  by_cases hval : (basic_validate_edifact_bytes w).1 = false
  · obtain ⟨hr, hfa, hse⟩ := process_one_invalid sendOk archiveOnSent hw hval
    refine ⟨by rw [hr]; exact (ready_after_move hnd m _).1,
      by rw [hr]; exact (ready_after_move hnd m _).2, Or.inr ⟨?_, ?_, hse⟩⟩
    · unfold containsF
      rw [hfa, (dest_after_move _ _ _ _).1]
      rfl
    · unfold containsF
      rw [hfa, (dest_after_move _ _ _ _).2]
      rfl
  · have hval' := bool_true_of_not_false hval
    by_cases hsend : sendOk m = true
    · obtain ⟨hr, hse, hfa⟩ := process_one_valid_sent sendOk archiveOnSent hw hval' hsend
      refine ⟨by rw [hr]; exact (ready_after_move hnd m _).1,
        by rw [hr]; exact (ready_after_move hnd m _).2, Or.inl ⟨?_, ?_, hfa⟩⟩
      · unfold containsF
        rw [hse, (dest_after_move _ _ _ _).1]
        rfl
      · unfold containsF
        rw [hse, (dest_after_move _ _ _ _).2]
        rfl
    · have hsend' := bool_false_of_not_true hsend
      obtain ⟨hr, hfa, hse⟩ := process_one_valid_failed sendOk archiveOnSent hw hval' hsend'
      refine ⟨by rw [hr]; exact (ready_after_move hnd m _).1,
        by rw [hr]; exact (ready_after_move hnd m _).2, Or.inr ⟨?_, ?_, hse⟩⟩
      · unfold containsF
        rw [hfa, (dest_after_move _ _ _ _).1]
        rfl
      · unfold containsF
        rw [hfa, (dest_after_move _ _ _ _).2]
        rfl

/-- Folding over names that are neither `q` nor the parent of `q` leaves
all of `q`'s entries untouched (and preserves Ready's key distinctness). -/
lemma fold_no_touch (sendOk : Name → Bool) (archiveOnSent : Bool) (q : Name) :
    ∀ (L : List Name) (st : PState), (∀ b ∈ L, b ≠ q ∧ b ++ META_EXT ≠ q) →
    lookupF (L.foldl (process_one sendOk archiveOnSent) st).ready q = lookupF st.ready q
    ∧ lookupF (L.foldl (process_one sendOk archiveOnSent) st).sent q = lookupF st.sent q
    ∧ lookupF (L.foldl (process_one sendOk archiveOnSent) st).failed q = lookupF st.failed q
    ∧ (NodupKeys st.ready → NodupKeys (L.foldl (process_one sendOk archiveOnSent) st).ready) := by
  intro L
  induction L with
  | nil => intro st _; exact ⟨rfl, rfl, rfl, id⟩
  | cons b L ih =>
    intro st hb
    obtain ⟨h1, h2⟩ := hb b (List.mem_cons_self b L)
    have hstep := process_one_preserves sendOk archiveOnSent st b
      q (fun h => h1 h.symm) (fun h => h2 h.symm)
    have hrec := ih (process_one sendOk archiveOnSent st b)
      (fun c hc => hb c (List.mem_cons_of_mem _ hc))
    rw [List.foldl_cons]
    refine ⟨?_, ?_, ?_, ?_⟩
    · rw [hrec.1, hstep.1]
    · rw [hrec.2.1, hstep.2.1]
    · rw [hrec.2.2.1, hstep.2.2]
    · intro hnd
      exact hrec.2.2.2 (process_one_nodup_ready hnd)

/-- Once a name `q` has left Ready, folding over names whose sidecar
name is not `q` keeps `q` out of Ready and keeps its Sent and Failed
entries fixed (a later snapshot entry equal to `q` itself is skipped
because `q` is no longer a file). -/
lemma fold_settled (sendOk : Name → Bool) (archiveOnSent : Bool) (q : Name) :
    ∀ (L : List Name) (st : PState), (∀ b ∈ L, b ++ META_EXT ≠ q) →
    containsF st.ready q = false →
    containsF (L.foldl (process_one sendOk archiveOnSent) st).ready q = false
    ∧ lookupF (L.foldl (process_one sendOk archiveOnSent) st).sent q = lookupF st.sent q
    ∧ lookupF (L.foldl (process_one sendOk archiveOnSent) st).failed q = lookupF st.failed q := by
  intro L
  induction L with
  | nil => intro st _ hq; exact ⟨hq, rfl, rfl⟩
  | cons b L ih =>
    intro st hb hq
    rw [List.foldl_cons]
    by_cases hcb : containsF st.ready b = true
    · have hbq : b ≠ q := by
        intro h
        rw [h, hq] at hcb
        exact absurd hcb (by simp)
      have hstep := process_one_preserves sendOk archiveOnSent st b
        q (fun h => hbq h.symm)
        (fun h => (hb b (List.mem_cons_self b L)) h.symm)
      have hq' : containsF (process_one sendOk archiveOnSent st b).ready q = false :=
        (contains_congr hstep.1).trans hq
      have hrec := ih (process_one sendOk archiveOnSent st b)
        (fun c hc => hb c (List.mem_cons_of_mem _ hc)) hq'
      exact ⟨hrec.1, hrec.2.1.trans hstep.2.1, hrec.2.2.trans hstep.2.2⟩
    · rw [process_one_not_present (bool_false_of_not_true hcb)]
      exact ih st (fun c hc => hb c (List.mem_cons_of_mem _ hc)) hq

lemma append_cancel_names {a b t : Name} (h : a ++ t = b ++ t) : a = b := by
  have h1 := congrArg List.reverse h
  rw [List.reverse_append, List.reverse_append] at h1
  have h2 := List.append_cancel_left h1
  exact List.reverse_injective h2

/-- Processing name `n` itself, with `n` still present and absent from
Sent/Failed, lands `n` in exactly one of Sent/Failed and removes it
from Ready. -/
lemma settle_disjunction (sendOk : Name → Bool) (arch : Bool) {st : PState} {n : Name}
    {v : List Nat} (hnd : NodupKeys st.ready) (hv : lookupF st.ready n = some v)
    (hs : containsF st.sent n = false) (hf : containsF st.failed n = false) :
    containsF (process_one sendOk arch st n).ready n = false
    ∧ ((containsF (process_one sendOk arch st n).sent n = true
        ∧ containsF (process_one sendOk arch st n).failed n = false)
       ∨ (containsF (process_one sendOk arch st n).sent n = false
        ∧ containsF (process_one sendOk arch st n).failed n = true)) := by
  have hset := process_one_settles sendOk arch hnd hv
  refine ⟨hset.1, ?_⟩
  by_cases hval : (basic_validate_edifact_bytes v).1 = false
  · obtain ⟨hfn, _, hsent_eq⟩ := hset.2.2.1 hval
    right
    refine ⟨by rw [hsent_eq]; exact hs, by unfold containsF; rw [hfn]; rfl⟩
  · have hval' := bool_true_of_not_false hval
    by_cases hsend : sendOk n = true
    · obtain ⟨hsn, hfail_eq⟩ := hset.2.2.2.1 hval' hsend
      left
      refine ⟨by unfold containsF; rw [hsn]; rfl, by rw [hfail_eq]; exact hf⟩
    · obtain ⟨hfn, hsent_eq⟩ := hset.2.2.2.2 hval' (bool_false_of_not_true hsend)
      right
      refine ⟨by rw [hsent_eq]; exact hs, by unfold containsF; rw [hfn]; rfl⟩

/-- Decomposition of the sorted Ready snapshot around a member `n`. -/
lemma run_queue_split (st : PState) (n : Name) (hnd : NodupKeys st.ready)
    (hmem : containsF st.ready n = true) :
    ∃ A B, sortNames ((keysOf st.ready).filter ready_filter) = A ++ n :: B
      ∧ n ∉ A ∧ n ∉ B ∧ A.Nodup
      ∧ (∀ a ∈ A, a ∉ n :: B)
      ∧ (∀ b ∈ B, lexLe n b = true)
      ∧ (∀ a ∈ A, lexLe a n = true)
      ∧ (∀ a, a ∈ A ++ n :: B → containsF st.ready a = true) := by
  have hfilter : (keysOf st.ready).filter ready_filter = keysOf st.ready :=
    List.filter_eq_self.mpr (fun a _ => by simp [ready_filter])
  rw [hfilter]
  have hperm := sortNames_perm (keysOf st.ready)
  have hpw := sortNames_pairwise (keysOf st.ready)
  have hSnd : (sortNames (keysOf st.ready)).Nodup := hperm.nodup_iff.mpr hnd
  have hmemS : n ∈ sortNames (keysOf st.ready) :=
    hperm.mem_iff.mpr ((containsF_iff_mem _ _).mp hmem)
  obtain ⟨A, B, hsplit⟩ := List.append_of_mem hmemS
  rw [hsplit] at hSnd hpw hperm
  rw [List.nodup_append] at hSnd
  obtain ⟨hAnd, hnBnd, hdisj⟩ := hSnd
  rw [List.nodup_cons] at hnBnd
  obtain ⟨hnB, hBnd⟩ := hnBnd
  rw [List.pairwise_append] at hpw
  obtain ⟨hpwA, hpwnB, hAB⟩ := hpw
  rw [List.pairwise_cons] at hpwnB
  obtain ⟨hnle, hpwB⟩ := hpwnB
  refine ⟨A, B, hsplit, ?_, hnB, hAnd, ?_, hnle,
    fun a ha => hAB a ha n (List.mem_cons_self n B), ?_⟩
  · intro hnA
    exact hdisj hnA (List.mem_cons_self n B)
  · intro a ha hx
    exact hdisj ha hx
  · intro a ha
    rw [containsF_iff_mem]
    exact hperm.mem_iff.mp ha

/-- Master lemma for C1/C9: every snapshot name ends in exactly one of
Sent/Failed and leaves Ready. -/
lemma run_queue_master (sendOk : Name → Bool) (arch : Bool) (st : PState) (n : Name)
    (hnd : NodupKeys st.ready) (hmem : containsF st.ready n = true)
    (hs : containsF st.sent n = false) (hf : containsF st.failed n = false) :
    ((containsF (process_ready_queue sendOk arch st).sent n = true
      ∧ containsF (process_ready_queue sendOk arch st).failed n = false)
     ∨ (containsF (process_ready_queue sendOk arch st).sent n = false
      ∧ containsF (process_ready_queue sendOk arch st).failed n = true))
    ∧ containsF (process_ready_queue sendOk arch st).ready n = false := by
  obtain ⟨A, B, hsplit, hnA, hnB, hAnd, hdisjAB, horder, hAle, hkeys⟩ :=
    run_queue_split st n hnd hmem
  unfold process_ready_queue
  rw [hsplit, List.foldl_append, List.foldl_cons]
  have hBres : ∀ b ∈ B, b ++ META_EXT ≠ n := by
    intro b hb h
    have hle := horder b hb
    rw [← h] at hle
    rw [lexLe_append_self b META_EXT (by simp [META_EXT])] at hle
    exact absurd hle (by simp)
  by_cases hpar : ∃ m, m ∈ A ∧ m ++ META_EXT = n
  · obtain ⟨m, hmA, hmext⟩ := hpar
    obtain ⟨A1, A2, hAsplit⟩ := List.append_of_mem hmA
    have hAnd' := hAnd
    rw [hAsplit, List.nodup_append] at hAnd'
    obtain ⟨hA1nd, hmA2nd, hdisjA⟩ := hAnd'
    rw [List.nodup_cons] at hmA2nd
    obtain ⟨hmA2, hA2nd⟩ := hmA2nd
    have hmA1 : m ∉ A1 := fun h => hdisjA h (List.mem_cons_self m A2)
    have hnA1 : n ∉ A1 := fun h => hnA (by rw [hAsplit]; exact List.mem_append_left _ h)
    have hnA2 : n ∉ A2 := fun h =>
      hnA (by rw [hAsplit]; exact List.mem_append_right _ (List.mem_cons_of_mem _ h))
    rw [hAsplit, List.foldl_append, List.foldl_cons]
    have hA1hyp : ∀ b ∈ A1, b ≠ n ∧ b ++ META_EXT ≠ n := by
      intro b hb
      constructor
      · intro h; rw [h] at hb; exact hnA1 hb
      · intro h
        have hbm : b = m := append_cancel_names (h.trans hmext.symm)
        rw [hbm] at hb; exact hmA1 hb
    have hA2hyp : ∀ b ∈ A2, b ++ META_EXT ≠ n := by
      intro b hb h
      have hbm : b = m := append_cancel_names (h.trans hmext.symm)
      rw [hbm] at hb; exact hmA2 hb
    have hfA1 := fold_no_touch sendOk arch n A1 st hA1hyp
    have hndA1 := hfA1.2.2.2 hnd
    have hsA1 : containsF (A1.foldl (process_one sendOk arch) st).sent n = false :=
      (contains_congr hfA1.2.1).trans hs
    have hfA1' : containsF (A1.foldl (process_one sendOk arch) st).failed n = false :=
      (contains_congr hfA1.2.2.1).trans hf
    by_cases hcm : containsF (A1.foldl (process_one sendOk arch) st).ready m = true
    · obtain ⟨w, hw⟩ := contains_some hcm
      have hpstep := process_one_parent sendOk arch hndA1 hw
      rw [hmext] at hpstep
      have hfA2 := fold_settled sendOk arch n A2 _ hA2hyp hpstep.1
      rw [process_one_not_present hfA2.1]
      have hfB := fold_settled sendOk arch n B _ hBres hfA2.1
      constructor
      · rcases hpstep.2.2 with ⟨h1, h2⟩ | ⟨h1, h2⟩
        · left
          refine ⟨(contains_congr hfB.2.1).trans ((contains_congr hfA2.2.1).trans h1), ?_⟩
          have h2' : containsF (process_one sendOk arch
              (A1.foldl (process_one sendOk arch) st) m).failed n = false := by
            rw [h2]; exact hfA1'
          exact (contains_congr hfB.2.2).trans ((contains_congr hfA2.2.2).trans h2')
        · right
          have h2' : containsF (process_one sendOk arch
              (A1.foldl (process_one sendOk arch) st) m).sent n = false := by
            rw [h2]; exact hsA1
          exact ⟨(contains_congr hfB.2.1).trans ((contains_congr hfA2.2.1).trans h2'),
            (contains_congr hfB.2.2).trans ((contains_congr hfA2.2.2).trans h1)⟩
      · exact hfB.1
    · rw [process_one_not_present (bool_false_of_not_true hcm)]
      have hA2hyp' : ∀ b ∈ A2, b ≠ n ∧ b ++ META_EXT ≠ n := fun b hb =>
        ⟨fun h => by rw [h] at hb; exact hnA2 hb, hA2hyp b hb⟩
      have hfA2 := fold_no_touch sendOk arch n A2
        (A1.foldl (process_one sendOk arch) st) hA2hyp'
      have hndA2 := hfA2.2.2.2 hndA1
      obtain ⟨v, hv0⟩ := contains_some hmem
      have hvA2 : lookupF (A2.foldl (process_one sendOk arch)
          (A1.foldl (process_one sendOk arch) st)).ready n = some v := by
        rw [hfA2.1, hfA1.1]; exact hv0
      have hsettle := settle_disjunction sendOk arch hndA2 hvA2
        ((contains_congr hfA2.2.1).trans hsA1) ((contains_congr hfA2.2.2.1).trans hfA1')
      have hfB := fold_settled sendOk arch n B _ hBres hsettle.1
      constructor
      · rcases hsettle.2 with ⟨h1, h2⟩ | ⟨h1, h2⟩
        · left
          exact ⟨(contains_congr hfB.2.1).trans h1, (contains_congr hfB.2.2).trans h2⟩
        · right
          exact ⟨(contains_congr hfB.2.1).trans h1, (contains_congr hfB.2.2).trans h2⟩
      · exact hfB.1
  · have hAhyp : ∀ b ∈ A, b ≠ n ∧ b ++ META_EXT ≠ n := fun b hb =>
      ⟨fun h => by rw [h] at hb; exact hnA hb, fun h => hpar ⟨b, hb, h⟩⟩
    have hfA := fold_no_touch sendOk arch n A st hAhyp
    obtain ⟨v, hv0⟩ := contains_some hmem
    have hvA : lookupF (A.foldl (process_one sendOk arch) st).ready n = some v := by
      rw [hfA.1]; exact hv0
    have hsettle := settle_disjunction sendOk arch (hfA.2.2.2 hnd) hvA
      ((contains_congr hfA.2.1).trans hs) ((contains_congr hfA.2.2.1).trans hf)
    have hfB := fold_settled sendOk arch n B _ hBres hsettle.1
    constructor
    · rcases hsettle.2 with ⟨h1, h2⟩ | ⟨h1, h2⟩
      · left
        exact ⟨(contains_congr hfB.2.1).trans h1, (contains_congr hfB.2.2).trans h2⟩
      · right
        exact ⟨(contains_congr hfB.2.1).trans h1, (contains_congr hfB.2.2).trans h2⟩
    · exact hfB.1

/-- Routing lemma: a snapshot name that is not the sidecar of any other
Ready entry is processed with its own payload: invalid → Failed with the
validation note in its sidecar; valid → Sent or Failed according to the
delivery outcome. -/
lemma run_queue_routing (sendOk : Name → Bool) (arch : Bool) (st : PState) (n : Name)
    (v : List Nat) (hnd : NodupKeys st.ready) (hv : lookupF st.ready n = some v)
    (hs : containsF st.sent n = false) (hf : containsF st.failed n = false)
    (hstand : ∀ m, containsF st.ready m = true → m ++ META_EXT ≠ n) :
    ((basic_validate_edifact_bytes v).1 = false →
      containsF (process_ready_queue sendOk arch st).failed n = true
      ∧ containsF (process_ready_queue sendOk arch st).sent n = false
      ∧ lookupF (process_ready_queue sendOk arch st).failed (n ++ META_EXT)
          = some (metaBytes (some ("validation_failed:" ++ (basic_validate_edifact_bytes v).2))))
    ∧ ((basic_validate_edifact_bytes v).1 = true → sendOk n = true →
      containsF (process_ready_queue sendOk arch st).sent n = true
      ∧ containsF (process_ready_queue sendOk arch st).failed n = false)
    ∧ ((basic_validate_edifact_bytes v).1 = true → sendOk n = false →
      containsF (process_ready_queue sendOk arch st).failed n = true
      ∧ containsF (process_ready_queue sendOk arch st).sent n = false) := by
  have hmem : containsF st.ready n = true := by unfold containsF; rw [hv]; rfl
  obtain ⟨A, B, hsplit, hnA, hnB, hAnd, hdisjAB, horder, hAle, hkeys⟩ :=
    run_queue_split st n hnd hmem
  unfold process_ready_queue
  rw [hsplit, List.foldl_append, List.foldl_cons]
  have hAhyp : ∀ b ∈ A, b ≠ n ∧ b ++ META_EXT ≠ n := by
    intro b hb
    refine ⟨fun h => by rw [h] at hb; exact hnA hb, ?_⟩
    exact hstand b (hkeys b (List.mem_append_left _ hb))
  have hfA := fold_no_touch sendOk arch n A st hAhyp
  have hvA : lookupF (A.foldl (process_one sendOk arch) st).ready n = some v := by
    rw [hfA.1]; exact hv
  have hndA := hfA.2.2.2 hnd
  have hsA := (contains_congr hfA.2.1).trans hs
  have hfA' := (contains_congr hfA.2.2.1).trans hf
  have hset := process_one_settles sendOk arch hndA hvA
  have hBn : ∀ b ∈ B, b ++ META_EXT ≠ n := fun b hb =>
    hstand b (hkeys b (List.mem_append_right _ (List.mem_cons_of_mem _ hb)))
  have hBmn : ∀ b ∈ B, b ++ META_EXT ≠ n ++ META_EXT := by
    intro b hb h
    have hbn : b = n := append_cancel_names h
    rw [hbn] at hb
    exact hnB hb
  have hfB := fold_settled sendOk arch n B _ hBn hset.1
  have hfBmn := fold_settled sendOk arch (n ++ META_EXT) B _ hBmn hset.2.1
  refine ⟨?_, ?_, ?_⟩
  · intro hval
    obtain ⟨hfn, hfmn, hsent_eq⟩ := hset.2.2.1 hval
    refine ⟨?_, ?_, ?_⟩
    · exact (contains_congr hfB.2.2).trans (by unfold containsF; rw [hfn]; rfl)
    · refine (contains_congr hfB.2.1).trans ?_
      rw [hsent_eq]; exact hsA
    · rw [hfBmn.2.2]; exact hfmn
  · intro hval hsend
    obtain ⟨hsn, hfail_eq⟩ := hset.2.2.2.1 hval hsend
    refine ⟨(contains_congr hfB.2.1).trans (by unfold containsF; rw [hsn]; rfl), ?_⟩
    refine (contains_congr hfB.2.2).trans ?_
    rw [hfail_eq]; exact hfA'
  · intro hval hsend
    obtain ⟨hfn, hsent_eq⟩ := hset.2.2.2.2 hval hsend
    refine ⟨(contains_congr hfB.2.2).trans (by unfold containsF; rw [hfn]; rfl), ?_⟩
    refine (contains_congr hfB.2.1).trans ?_
    rw [hsent_eq]; exact hsA

/-- Sidecar accompaniment across the whole run: when the document `m` is
in the Ready snapshot, the name `m ++ ".meta.json"` ends up in whichever
terminal directory `m`'s own validation/delivery outcome selects, and
leaves Ready — with no hypothesis on (and no inspection of) the
sidecar's own content. -/
lemma run_queue_sidecar (sendOk : Name → Bool) (arch : Bool) (st : PState) (m : Name)
    (w : List Nat) (hnd : NodupKeys st.ready) (hw : lookupF st.ready m = some w)
    (hsm : containsF st.sent (m ++ META_EXT) = false)
    (hfm : containsF st.failed (m ++ META_EXT) = false)
    (hstand : ∀ k, containsF st.ready k = true → k ++ META_EXT ≠ m) :
    containsF (process_ready_queue sendOk arch st).ready (m ++ META_EXT) = false
    ∧ ((containsF (process_ready_queue sendOk arch st).sent m = true
        ∧ containsF (process_ready_queue sendOk arch st).sent (m ++ META_EXT) = true
        ∧ containsF (process_ready_queue sendOk arch st).failed (m ++ META_EXT) = false)
       ∨ (containsF (process_ready_queue sendOk arch st).failed m = true
        ∧ containsF (process_ready_queue sendOk arch st).failed (m ++ META_EXT) = true
        ∧ containsF (process_ready_queue sendOk arch st).sent (m ++ META_EXT) = false)) := by
  have hmem : containsF st.ready m = true := by unfold containsF; rw [hw]; rfl
  obtain ⟨A, B, hsplit, hmA, hmB, hAnd, hdisjAB, horder, hAle, hkeys⟩ :=
    run_queue_split st m hnd hmem
  unfold process_ready_queue
  rw [hsplit, List.foldl_append, List.foldl_cons]
  have hAhyp : ∀ b ∈ A, b ≠ m ∧ b ++ META_EXT ≠ m := by
    intro b hb
    refine ⟨fun h => by rw [h] at hb; exact hmA hb, ?_⟩
    exact hstand b (hkeys b (List.mem_append_left _ hb))
  have hAhypm : ∀ b ∈ A, b ≠ m ++ META_EXT ∧ b ++ META_EXT ≠ m ++ META_EXT := by
    intro b hb
    constructor
    · intro h
      have hle := hAle b hb
      rw [h, lexLe_append_self m META_EXT (by simp [META_EXT])] at hle
      exact absurd hle (by simp)
    · intro h
      have hbm : b = m := append_cancel_names h
      rw [hbm] at hb
      exact hmA hb
  have hfA := fold_no_touch sendOk arch m A st hAhyp
  have hfAm := fold_no_touch sendOk arch (m ++ META_EXT) A st hAhypm
  have hndA := hfA.2.2.2 hnd
  have hvA : lookupF (A.foldl (process_one sendOk arch) st).ready m = some w := by
    rw [hfA.1]; exact hw
  have hpair := process_one_parent_pair sendOk arch hndA hvA
  have hBm : ∀ b ∈ B, b ++ META_EXT ≠ m := fun b hb =>
    hstand b (hkeys b (List.mem_append_right _ (List.mem_cons_of_mem _ hb)))
  have hBmm : ∀ b ∈ B, b ++ META_EXT ≠ m ++ META_EXT := by
    intro b hb h
    have hbm : b = m := append_cancel_names h
    rw [hbm] at hb
    exact hmB hb
  have hfB := fold_settled sendOk arch m B _ hBm hpair.1
  have hfBm := fold_settled sendOk arch (m ++ META_EXT) B _ hBmm hpair.2.1
  refine ⟨hfBm.1, ?_⟩
  rcases hpair.2.2 with ⟨h1, h2, h3⟩ | ⟨h1, h2, h3⟩
  · left
    refine ⟨(contains_congr hfB.2.1).trans h1, (contains_congr hfBm.2.1).trans h2, ?_⟩
    have h3' : containsF (process_one sendOk arch
        (A.foldl (process_one sendOk arch) st) m).failed (m ++ META_EXT) = false := by
      rw [h3]
      exact (contains_congr hfAm.2.2.1).trans hfm
    exact (contains_congr hfBm.2.2).trans h3'
  · right
    refine ⟨(contains_congr hfB.2.2).trans h1, (contains_congr hfBm.2.2).trans h2, ?_⟩
    have h3' : containsF (process_one sendOk arch
        (A.foldl (process_one sendOk arch) st) m).sent (m ++ META_EXT) = false := by
      rw [h3]
      exact (contains_congr hfAm.2.1).trans hsm
    exact (contains_congr hfBm.2.1).trans h3'

/-- Claim C1: after `process_ready_queue` handles a Ready snapshot, each
snapshot basename is in exactly one of Sent/Failed and none remains in
Ready (under the documented invariant that Ready names are not also in
Sent or Failed, and the directory listing has distinct names); a
document that is not the sidecar of another snapshot entry is routed by
its own validation and delivery outcome: invalid → Failed with the
validation note, valid → Sent on delivery success, Failed on delivery
failure. -/
theorem C1_queue_terminal (sendOk : Name → Bool) (arch : Bool) (st : PState) (n : Name)
    (hnd : NodupKeys st.ready) (hmem : containsF st.ready n = true)
    (hs : containsF st.sent n = false) (hf : containsF st.failed n = false) :
    ((containsF (process_ready_queue sendOk arch st).sent n = true
      ∧ containsF (process_ready_queue sendOk arch st).failed n = false)
     ∨ (containsF (process_ready_queue sendOk arch st).sent n = false
      ∧ containsF (process_ready_queue sendOk arch st).failed n = true))
    ∧ containsF (process_ready_queue sendOk arch st).ready n = false
    ∧ ((∀ m, containsF st.ready m = true → m ++ META_EXT ≠ n) →
       ∀ v, lookupF st.ready n = some v →
       ((basic_validate_edifact_bytes v).1 = false →
         containsF (process_ready_queue sendOk arch st).failed n = true
         ∧ lookupF (process_ready_queue sendOk arch st).failed (n ++ META_EXT)
             = some (metaBytes (some ("validation_failed:" ++ (basic_validate_edifact_bytes v).2))))
       ∧ ((basic_validate_edifact_bytes v).1 = true → sendOk n = true →
           containsF (process_ready_queue sendOk arch st).sent n = true)
       ∧ ((basic_validate_edifact_bytes v).1 = true → sendOk n = false →
           containsF (process_ready_queue sendOk arch st).failed n = true)) := by
  have hm := run_queue_master sendOk arch st n hnd hmem hs hf
  refine ⟨hm.1, hm.2, ?_⟩
  intro hstand v hv
  have hr := run_queue_routing sendOk arch st n v hnd hv hs hf hstand
  exact ⟨fun h => ⟨(hr.1 h).1, (hr.1 h).2.2⟩, fun h1 h2 => (hr.2.1 h1 h2).1,
    fun h1 h2 => (hr.2.2 h1 h2).1⟩

/-- Witness for C1: one invalid document (content `"UNA"` only) in
Ready ends in Failed, with the validation note in its sidecar, and
leaves Ready. -/
theorem C1_queue_terminal_witness :
    containsF (process_ready_queue (fun _ => true) true
      ⟨[([97], [85, 78, 65])], [], [], []⟩).failed [97] = true
    ∧ containsF (process_ready_queue (fun _ => true) true
      ⟨[([97], [85, 78, 65])], [], [], []⟩).ready [97] = false := by
  have h := C1_queue_terminal (fun _ => true) true ⟨[([97], [85, 78, 65])], [], [], []⟩ [97]
    (by unfold NodupKeys keysOf; decide) (by decide) (by decide) (by decide)
  have hstand : ∀ m, containsF (PState.mk [([97], [85, 78, 65])] [] [] []).ready m = true →
      m ++ META_EXT ≠ [97] := by
    intro m hm
    have hmk := (containsF_iff_mem _ _).mp hm
    simp [keysOf] at hmk
    rw [hmk]
    intro hcontra
    exact absurd (congrArg List.length hcontra) (by decide)
  exact ⟨((h.2.2 hstand [85, 78, 65] (by decide)).1 (by decide)).1, h.2.1⟩

/-- A Ready directory holding a valid document `"a"` together with its
sidecar `"a.meta.json"`, whose own content (`"{"`, a JSON fragment) is
invalid as a document. -/
def sidecarState : PState :=
  ⟨[([97], sampleEdifact), ([97] ++ META_EXT, [123])], [], [], []⟩

/-- Counterexample for C9: a sidecar metadata file accompanying a
present document is not itself validated and routed on its own content.
Its content (`"{"`) is invalid as a document, yet after the run its name
sits in Sent — dragged along with the successfully delivered document —
and not in Failed, where validating it as a document would have put it. -/
theorem C9_sidecar_counterexample :
    (basic_validate_edifact_bytes [123]).1 = false
    ∧ containsF (process_ready_queue (fun _ => true) false sidecarState).sent
        ([97] ++ META_EXT) = true
    ∧ containsF (process_ready_queue (fun _ => true) false sidecarState).failed
        ([97] ++ META_EXT) = false := by
  decide

/-- Claim C9 (corrected): the `.edi` filter of the snapshot is vacuous
(`or True`), so every regular file in Ready — sidecar metadata files
included — is snapshotted and relocated; but only an entry that is not
the sidecar of another Ready entry is itself validated and routed on
its own content (invalid → Failed, not Sent, and out of Ready). An
entry `m ++ ".meta.json"` whose document `m` is also in Ready is
instead relocated together with `m` into the directory chosen by `m`'s
own validation/delivery outcome — possibly Sent — without its content
being validated. -/
theorem C9_queue_all_files :
    (∀ f : Name, ready_filter f = true)
    ∧ (∀ (sendOk : Name → Bool) (arch : Bool) (st : PState) (n : Name) (v : List Nat),
        NodupKeys st.ready → lookupF st.ready n = some v →
        containsF st.sent n = false → containsF st.failed n = false →
        (∀ k, containsF st.ready k = true → k ++ META_EXT ≠ n) →
        (basic_validate_edifact_bytes v).1 = false →
        containsF (process_ready_queue sendOk arch st).failed n = true
        ∧ containsF (process_ready_queue sendOk arch st).sent n = false
        ∧ containsF (process_ready_queue sendOk arch st).ready n = false)
    ∧ (∀ (sendOk : Name → Bool) (arch : Bool) (st : PState) (m : Name) (w : List Nat),
        NodupKeys st.ready → lookupF st.ready m = some w →
        containsF st.sent (m ++ META_EXT) = false →
        containsF st.failed (m ++ META_EXT) = false →
        (∀ k, containsF st.ready k = true → k ++ META_EXT ≠ m) →
        containsF (process_ready_queue sendOk arch st).ready (m ++ META_EXT) = false
        ∧ ((containsF (process_ready_queue sendOk arch st).sent m = true
            ∧ containsF (process_ready_queue sendOk arch st).sent (m ++ META_EXT) = true
            ∧ containsF (process_ready_queue sendOk arch st).failed (m ++ META_EXT) = false)
           ∨ (containsF (process_ready_queue sendOk arch st).failed m = true
            ∧ containsF (process_ready_queue sendOk arch st).failed (m ++ META_EXT) = true
            ∧ containsF (process_ready_queue sendOk arch st).sent (m ++ META_EXT) = false))) := by
  refine ⟨?_, ?_, ?_⟩
  · intro f
    simp [ready_filter]
  · intro sendOk arch st n v hnd hv hs hf hstand hval
    have hmem : containsF st.ready n = true := by unfold containsF; rw [hv]; rfl
    have hm := run_queue_master sendOk arch st n hnd hmem hs hf
    have hr := run_queue_routing sendOk arch st n v hnd hv hs hf hstand
    exact ⟨(hr.1 hval).1, (hr.1 hval).2.1, hm.2⟩
  · intro sendOk arch st m w hnd hw hsm hfm hstand
    exact run_queue_sidecar sendOk arch st m w hnd hw hsm hfm hstand

/-- Witness for C9: in `sidecarState` the filter admits the sidecar
name, and the accompaniment part applied to document `"a"` places the
sidecar name in Sent alongside it and out of Ready. -/
theorem C9_queue_all_files_witness :
    ready_filter ([97] ++ META_EXT) = true
    ∧ containsF (process_ready_queue (fun _ => true) false sidecarState).sent
        ([97] ++ META_EXT) = true
    ∧ containsF (process_ready_queue (fun _ => true) false sidecarState).ready
        ([97] ++ META_EXT) = false := by
  have hstand : ∀ k, containsF sidecarState.ready k = true → k ++ META_EXT ≠ [97] := by
    intro k _ hcontra
    have hlen : (k ++ META_EXT).length = 1 := by rw [hcontra]; rfl
    rw [List.length_append] at hlen
    have h11 : META_EXT.length = 10 := by decide
    omega
  have h := C9_queue_all_files.2.2 (fun _ => true) false sidecarState [97] sampleEdifact
    (by unfold NodupKeys keysOf; decide) (by decide) (by decide) (by decide) hstand
  refine ⟨C9_queue_all_files.1 ([97] ++ META_EXT), ?_, h.1⟩
  rcases h.2 with ⟨h1, h2, h3⟩ | ⟨h1, h2, h3⟩
  · exact h2
  · exact absurd h2 (by decide)

/-- Witness for C6 at a concrete one-file Ready directory. -/
theorem C6_conflict_on_occupied_witness :
    move_to_ready ⟨[([97], [85])], [], [], []⟩ [97] [86] false
      = (⟨[([97], [85])], [], [], []⟩, Except.error [97])
    ∧ lookupF (move_to_ready ⟨[([97], [85])], [], [], []⟩ [97] [86] true).1.ready [97]
      = some [86] := by
  have h := C6_conflict_on_occupied ⟨[([97], [85])], [], [], []⟩ [97] [86] (by decide)
  refine ⟨h.1, ?_⟩
  obtain ⟨st', heq, hlook, _⟩ := h.2
  rw [heq]
  exact hlook

end MLLP
